import Mathlib

/-!
Verification of the doo service orchestrator (doo.go, runner.go).

The Go code is shallowly embedded: pure fragments become Lean functions,
the scheduler's mutable state becomes an explicit state record with a step
relation, subprocess and network effects become oracle parameters, and Go
panics or model fuel exhaustion become error values of an Except monad.
-/

namespace Doo

/-! ## Models of runner.go -/

/-- Model of expSleepTime (runner.go): 50 milliseconds doubled i times,
expressed in nanoseconds (Go time.Duration units). -/
def expSleepTime : Nat → Nat
  | 0 => 50 * 1000000
  | i + 1 => 2 * expSleepTime i

/-- Outcome of a single net.DialTimeout call, as far as checkListens
inspects it: success, a connection-refused syscall error, or any other
error (carrying its message). -/
inductive DialOutcome where
  | success
  | refused
  | otherError (msg : String)
deriving DecidableEq, Repr

/-- Model of checkListens (runner.go). The filesystem existence test and
the TCP dial are oracles. A leading slash routes to os.Stat; otherwise a
refused dial yields (false, nil), a successful dial yields (true, nil)
and any other dial error yields (true, err) exactly as the Go code does. -/
def checkListens (fsExists : String → Bool) (dial : String → DialOutcome)
    (addr : String) : Bool × Option String :=
  if addr.front = '/' then
    (fsExists addr, none)
  else
    match dial addr with
    | .success => (true, none)
    | .refused => (false, none)
    | .otherError msg => (true, some msg)

/-- Statistics of one readiness-probe loop for a single address: how many
checkListens calls ran and which sleeps (in nanoseconds) were performed. -/
structure ProbeTrace where
  checks : Nat
  sleeps : List Nat
deriving DecidableEq, Repr

/-- Model of the per-address polling loop inside runJob (runner.go).
The check oracle gives, for attempt i, the (listens, err) pair returned
by checkListens. Mirrors the Go loop: attempt index i counts up; when it
reaches 10 the loop fails with the didn't-listen message; a non-nil check
error is returned at once; a positive listens result ends the loop; and
otherwise the loop sleeps expSleepTime i and retries. -/
def probeFrom (check : Nat → Bool × Option String) (addr : String) (i : Nat) :
    ProbeTrace × Except String Unit :=
  if _h : 10 ≤ i then
    (⟨0, []⟩, .error ("service didn't listen to: " ++ addr))
  else
    match check i with
    | (_, some e) => (⟨1, []⟩, .error e)
    | (true, none) => (⟨1, []⟩, .ok ())
    | (false, none) =>
      let r := probeFrom check addr (i + 1)
      (⟨r.1.checks + 1, expSleepTime i :: r.1.sleeps⟩, r.2)
termination_by 10 - i

/-- Model of the listens phase of runJob for mode Start: the probe runs for
each address in turn and its first error aborts the job. The oracle takes
the address and the attempt index. -/
def runJobListens (check : String → Nat → Bool × Option String) :
    List String → Except String Unit
  | [] => .ok ()
  | addr :: rest =>
    match (probeFrom (check addr) addr 0).2 with
    | .error e => .error e
    | .ok () => runJobListens check rest

/-- Model of combinedOutputError (runner.go). The subprocess run is an
oracle pair: the combined output bytes (as a string) and the error of
cmd.CombinedOutput. When the run errored and the output holds more than
one byte, the output is appended to the error message after a newline. -/
def combinedOutputError (output : String) (runErr : Option String) :
    Except String String :=
  match runErr with
  | some e =>
    if 1 < output.utf8ByteSize then .error (e ++ "\n" ++ output)
    else .error e
  | none => .ok output

/-- Result of one launchctl bootout invocation as launchdRunner.stop
inspects it: the wait status if cmd.ProcessState.Sys() converts to a
syscall.WaitStatus, and the error returned by combinedOutputError. -/
structure BootoutResult where
  status : Option Nat
  err : Option String
deriving DecidableEq, Repr

/-- Model of the retry loop of launchdRunner.stop (runner.go), with fuel.
The oracle gives the BootoutResult of the i-th launchctl bootout run.
A status of 9216 sleeps and retries; a failed WaitStatus conversion also
retries (the Go loop has no break on that path); status 768 clears the
error and breaks; any other status breaks with the invocation's error.
The fuel bounds how many iterations the model unfolds: none means the
loop did not return within the given fuel. -/
def launchdStopLoop (boot : Nat → BootoutResult) :
    Nat → Nat → Option (Option String)
  | 0, _ => none
  | fuel + 1, i =>
    match (boot i).status with
    | none => launchdStopLoop boot fuel (i + 1)
    | some s =>
      if s = 9216 then launchdStopLoop boot fuel (i + 1)
      else if s = 768 then some none
      else some (boot i).err

deriving instance DecidableEq for Except

/-! ## Data model of doo.go -/

/-- Model of the Target struct (doo.go). The dependants field holds the
names of the dependant targets (Go stores pointers; after validation a
target is identified by its name in targetMap). The config pointer is
modelled by an identity number together with the config path used in
error messages: two targets come from the same dooConfig value exactly
when their configId agrees. -/
structure Target where
  name : String
  dependencies : List String
  invokes : List String
  cwd : String
  runner : String
  command : String
  listens : List String
  dependants : List String
  configId : Nat
  configPath : String
deriving DecidableEq, Repr

/-- Model of the TargetStart mode constant (doo.go). -/
def TargetStart : Nat := 0

/-- Model of the TargetStop mode constant (doo.go). -/
def TargetStop : Nat := 1

/-- Model of isValidRunner (runner.go): membership in the runners map. -/
def isValidRunner (s : String) : Bool :=
  s = "shell" || s = "tmux" || s = "launchd"

/-- Model of Target.isExclusive (runner.go). -/
def Target.isExclusive (t : Target) : Bool := t.runner = "shell"

/-- Model of the Job struct (doo.go). The target pointer may be nil
(modelled as none); startedAt and completedAt are kept only as presence
flags since the scheduler never branches on the actual instants. The
dependentJobs pointers are stored as target names, the key under which
every created job sits in the job map. -/
structure Job where
  target : Option Target
  mode : Nat
  dependencyCount : Int
  dependentJobs : List String
  started : Bool
  completed : Bool
  err : Option String
deriving DecidableEq, Repr

/-- Exclusivity of a job's target, used where the Go code calls
job.target.isExclusive(); the Go code would panic on a nil target, a
state the theorems below never exercise (jobs built by the job graph
builder always carry a target). -/
def jobExclusive (j : Job) : Bool :=
  match j.target with
  | some t => t.isExclusive
  | none => false

/-! Association lists model the Go maps keyed by target name. -/

/-- Lookup in an association list, mirroring Go map indexing. -/
def alookup {α : Type} (key : String) : List (String × α) → Option α
  | [] => none
  | (k, v) :: rest => if k = key then some v else alookup key rest

/-- Insertion or replacement in an association list, mirroring a Go map
assignment. -/
def aset {α : Type} (key : String) (v : α) : List (String × α) → List (String × α)
  | [] => [(key, v)]
  | (k, w) :: rest => if k = key then (k, v) :: rest else (k, w) :: aset key v rest

/-- In-place update of the value stored under a key, mirroring a Go
mutation through a map-held pointer; absent keys leave the list as is. -/
def amodify {α : Type} (key : String) (f : α → α) :
    List (String × α) → List (String × α)
  | [] => []
  | (k, w) :: rest =>
    if k = key then (k, f w) :: rest else (k, w) :: amodify key f rest

/-- Keys of an association list. -/
def akeys {α : Type} (l : List (String × α)) : List String := l.map Prod.fst

/-- Model of the mutable fields of the doo struct that the scheduler,
the job graph builder and the validator touch. -/
structure DooState where
  targetMap : List (String × Target)
  jobs : List (String × Job)
  startedJobs : Nat
  completedJobs : Nat
  didError : Bool
  isExclusiveRunning : Bool
  ignoreDependencies : Bool
deriving DecidableEq, Repr

/-- Abnormal outcomes of the embedded Go functions: a Go runtime panic
(nil pointer dereference), or exhaustion of the model's recursion fuel. -/
inductive GoErr where
  | panicked
  | noFuel
deriving DecidableEq, Repr

/-- Model of addJobDependency (doo.go): increment the dependency count of
the job named fromName and append fromName to the dependent list of the
job named toName. -/
def addJobDependency (fromName toName : String) (jobs : List (String × Job)) :
    List (String × Job) :=
  amodify toName (fun j => { j with dependentJobs := j.dependentJobs ++ [fromName] })
    (amodify fromName (fun j => { j with dependencyCount := j.dependencyCount + 1 }) jobs)

mutual

/-- Model of createStartJob (doo.go), with fuel bounding the recursion
depth. A memoized name returns the state unchanged. An unknown name makes
the Go code dereference a nil target (len of target.Dependencies), which
the model reports as panicked. Otherwise a fresh Start job is registered
before the dependencies are traversed recursively, each recursion being
followed by addJobDependency for the new edge. -/
def createStartJob : Nat → String → DooState → Except GoErr DooState
  | 0, _, _ => .error .noFuel
  | fuel + 1, name, d =>
    match alookup name d.jobs with
    | some _ => .ok d
    | none =>
      match alookup name d.targetMap with
      | none => .error .panicked
      | some t =>
        let job : Job :=
          { target := some t, mode := TargetStart, dependencyCount := 0,
            dependentJobs := [], started := false, completed := false, err := none }
        let d1 := { d with jobs := aset name job d.jobs }
        if d1.ignoreDependencies || t.dependencies.length = 0 then .ok d1
        else startJobDeps fuel name t.dependencies d1
termination_by fuel _ _ => (fuel, 0)

/-- The dependency loop of createStartJob. -/
def startJobDeps : Nat → String → List String → DooState → Except GoErr DooState
  | _, _, [], d => .ok d
  | fuel, name, dep :: rest, d =>
    match createStartJob fuel dep d with
    | .error e => .error e
    | .ok d1 => startJobDeps fuel name rest
        { d1 with jobs := addJobDependency name dep d1.jobs }
termination_by fuel _ l _ => (fuel, l.length + 1)

end

mutual

/-- Model of createStopJob (doo.go), with fuel. A memoized name returns
the state unchanged. The Stop mode is set on the fresh job; when
ignoreDependencies is set the job is returned before the target is
touched, so an unknown name panics only on the dependants traversal. -/
def createStopJob : Nat → String → DooState → Except GoErr DooState
  | 0, _, _ => .error .noFuel
  | fuel + 1, name, d =>
    match alookup name d.jobs with
    | some _ => .ok d
    | none =>
      let tgt := alookup name d.targetMap
      let job : Job :=
        { target := tgt, mode := TargetStop, dependencyCount := 0,
          dependentJobs := [], started := false, completed := false, err := none }
      let d1 := { d with jobs := aset name job d.jobs }
      if d1.ignoreDependencies then .ok d1
      else
        match tgt with
        | none => .error .panicked
        | some t => stopJobDeps fuel name t.dependants d1
termination_by fuel _ _ => (fuel, 0)

/-- The dependants loop of createStopJob. -/
def stopJobDeps : Nat → String → List String → DooState → Except GoErr DooState
  | _, _, [], d => .ok d
  | fuel, name, other :: rest, d =>
    match createStopJob fuel other d with
    | .error e => .error e
    | .ok d1 => stopJobDeps fuel name rest
        { d1 with jobs := addJobDependency name other d1.jobs }
termination_by fuel _ l _ => (fuel, l.length + 1)

end

/-- Model of doo.hasRunningJobs (doo.go). -/
def hasRunningJobs (d : DooState) : Bool := d.completedJobs < d.startedJobs

/-- Model of doo.hasCompleted (doo.go). -/
def hasCompleted (d : DooState) : Bool := d.completedJobs = d.jobs.length

/-- Controller-side effect of doo.startJob (doo.go): stamp startedAt,
count the dispatch and raise the exclusivity flag for exclusive targets.
The worker body runs asynchronously and is modelled by jobDone below. -/
def startJob (name : String) (j : Job) (d : DooState) : DooState :=
  { d with jobs := aset name { j with started := true } d.jobs,
           startedJobs := d.startedJobs + 1,
           isExclusiveRunning := if jobExclusive j then true else d.isExclusiveRunning }

/-- Worker-side effect recorded on a job before it is sent on the
completion channel: completedAt is stamped and err is stored. -/
def jobDone (e : Option String) (j : Job) : Job :=
  { j with completed := true, err := e }

/-- One dependencyCount decrement per entry of a dependentJobs list,
as performed by didComplete. -/
def decDependents : List String → List (String × Job) → List (String × Job)
  | [], jobs => jobs
  | nm :: rest, jobs =>
    decDependents rest
      (amodify nm (fun j => { j with dependencyCount := j.dependencyCount - 1 }) jobs)

/-- The Invokes expansion loop of didComplete: one createStartJob call
per invoked name. -/
def invokeAll (fuel : Nat) : List String → DooState → Except GoErr DooState
  | [], d => .ok d
  | nm :: rest, d =>
    match createStartJob fuel nm d with
    | .error e => .error e
    | .ok d1 => invokeAll fuel rest d1

/-- Model of doo.didComplete (doo.go) for the job value received on the
completion channel: count the completion, clear the exclusivity flag for
an exclusive target, decrement every dependent's dependencyCount, record
didError when the job failed, and, when the mode is Start, run
createStartJob on every name of the target's Invokes list. The Go code
performs the Invokes expansion without consulting job.err. -/
def didComplete (fuel : Nat) (job : Job) (d : DooState) : Except GoErr DooState :=
  match job.target with
  | none => .error .panicked
  | some t =>
    let d := { d with completedJobs := d.completedJobs + 1,
                      isExclusiveRunning :=
                        if t.isExclusive then false else d.isExclusiveRunning }
    let d := { d with jobs := decDependents job.dependentJobs d.jobs }
    let d := if job.err.isSome then { d with didError := true } else d
    if job.mode = TargetStart then invokeAll fuel t.invokes d else .ok d

/-- The scan of doo.nextJob over the job map: skip started jobs, jobs
with outstanding dependencies and exclusive jobs while anything runs. -/
def nextJobScan (d : DooState) : List (String × Job) → Option (String × Job)
  | [] => none
  | (n, j) :: rest =>
    if j.started then nextJobScan d rest
    else if 0 < j.dependencyCount then nextJobScan d rest
    else if jobExclusive j && hasRunningJobs d then nextJobScan d rest
    else some (n, j)

/-- Model of doo.nextJob (doo.go): nothing is admissible while the
exclusivity flag is raised; otherwise the first admissible job of the
map scan is returned. Go map iteration order is unspecified; the model
fixes the association-list order, and whether any job is returned does
not depend on that order. -/
def nextJob (d : DooState) : Option (String × Job) :=
  if d.isExclusiveRunning then none else nextJobScan d d.jobs

/-- Outcome of one iteration of the runAllJobs loop: the loop breaks
with a final state, one iteration completes and the loop continues, or
the model cannot follow the trace (blocked channel read with an empty
event trace, an event naming a job that is not in flight, or a Go panic
inside didComplete). -/
inductive LoopResult where
  | done (d : DooState)
  | next (events : List (String × Option String)) (d : DooState)
  | blocked
deriving Repr

/-- One iteration of doo.runAllJobs (doo.go), with the completion
channel modelled by a trace of events naming the finishing job and
carrying its error. Mirrors the Go control flow: a raised didError or a
completed run breaks; an admissible job is dispatched; otherwise with
jobs in flight one completion event is consumed (the worker's
completedAt and err stores followed by didComplete); and with nothing
in flight the loop breaks. -/
def runAllJobsStep (cfuel : Nat) (events : List (String × Option String))
    (d : DooState) : LoopResult :=
  if d.didError then .done d
  else if hasCompleted d then .done d
  else
    match nextJob d with
    | some p => .next events (startJob p.1 p.2 d)
    | none =>
      if hasRunningJobs d then
        match events with
        | [] => .blocked
        | ev :: rest =>
          match alookup ev.1 d.jobs with
          | none => .blocked
          | some j =>
            if j.started && !j.completed then
              match didComplete cfuel (jobDone ev.2 j)
                  { d with jobs := aset ev.1 (jobDone ev.2 j) d.jobs } with
              | .ok d1 => .next rest d1
              | .error _ => .blocked
            else .blocked
      else .done d

/-- Model of doo.runAllJobs (doo.go): the loop iterates runAllJobsStep,
with fuel bounding the number of iterations; none marks fuel exhaustion
or a trace the model cannot follow. -/
def runAllJobs (cfuel : Nat) :
    Nat → List (String × Option String) → DooState → Option DooState
  | 0, _, _ => none
  | fuel + 1, events, d =>
    match runAllJobsStep cfuel events d with
    | .done d' => some d'
    | .next rest d' => runAllJobs cfuel fuel rest d'
    | .blocked => none

/-- What the tail of main (doo.go) prints and which exit code it uses
after runAllJobs has returned. -/
structure ExitReport where
  message : Option String
  exitCode : Nat
deriving DecidableEq, Repr

/-- Model of the tail of main (doo.go): a raised didError exits with
code 1; an incomplete run reports the deadlock line through log.Fatalln,
which exits with code 1; otherwise main returns normally. -/
def mainEpilogue (d : DooState) : ExitReport :=
  if d.didError then { message := none, exitCode := 1 }
  else if hasCompleted d then { message := none, exitCode := 0 }
  else { message := some "doo is deadlocked. do you have a dependency cycle?",
         exitCode := 1 }

/-! ## Model of the validator (doo.go validateTargets) -/

/-- Output of validateTargets: the name index with dependants populated,
and the accumulated error list. -/
structure Validated where
  targetMap : List (String × Target)
  errors : List String
deriving DecidableEq, Repr

/-- First pass of validateTargets (doo.go): build targetMap while
accumulating the name, duplicate, runner and command errors. A target
without a name is reported and skipped. A name collision is reported
with one message when both definitions share a config value and another
when they come from different configs. An unrecognized runner is
reported; otherwise a non-shell target with an empty command is
reported. The target is then stored under its name regardless. -/
def validatePass1 :
    List (String × Target) → List String → List Target →
      List (String × Target) × List String
  | tmap, errs, [] => (tmap, errs)
  | tmap, errs, t :: rest =>
    if t.name = "" then
      validatePass1 tmap (errs ++ ["Target without name in " ++ t.configPath]) rest
    else
      let dupErrs :=
        match alookup t.name tmap with
        | some other =>
          if other.configId = t.configId then
            ["Duplicate definition for " ++ t.name ++ " in " ++ t.configPath]
          else
            ["Duplicate definition for " ++ t.name ++ " in " ++ t.configPath ++
              " and " ++ other.configPath]
        | none => []
      let runnerErrs :=
        if !isValidRunner t.runner then
          ["Target " ++ t.name ++ " in " ++ t.configPath ++
            " has invalid runner: " ++ t.runner]
        else if t.runner ≠ "shell" && t.command = "" then
          ["Target " ++ t.name ++ " in " ++ t.configPath ++ " is missing command"]
        else []
      validatePass1 (aset t.name t tmap) (errs ++ dupErrs ++ runnerErrs) rest

/-- The dependency loop of the second validateTargets pass for one
target: each resolved dependency appends the target's name to the
referenced entry's dependants, each unresolved one is reported. -/
def validateDeps (tname : String) :
    List (String × Target) → List String → List String →
      List (String × Target) × List String
  | tmap, errs, [] => (tmap, errs)
  | tmap, errs, dep :: deps =>
    match alookup dep tmap with
    | some _ =>
      validateDeps tname
        (amodify dep (fun o => { o with dependants := o.dependants ++ [tname] }) tmap)
        errs deps
    | none =>
      validateDeps tname tmap
        (errs ++ [tname ++ " depends on unknown target " ++ dep]) deps

/-- Second pass of validateTargets (doo.go): the dependants set-up loop
over all targets. -/
def validatePass2 :
    List (String × Target) → List String → List Target →
      List (String × Target) × List String
  | tmap, errs, [] => (tmap, errs)
  | tmap, errs, t :: rest =>
    let r := validateDeps t.name tmap errs t.dependencies
    validatePass2 r.1 r.2 rest

/-- Model of doo.validateTargets (doo.go): both passes run over the full
target list with an initially empty map and error list. -/
def validateTargets (ts : List Target) : Validated :=
  let r1 := validatePass1 [] [] ts
  let r2 := validatePass2 r1.1 r1.2 ts
  { targetMap := r2.1, errors := r2.2 }

/-! ## The scheduler transition system -/

/-- A key occurs at most once in the job map (Go maps guarantee this;
the builder inserts a name only when it is absent). -/
abbrev KeysNodup (l : List (String × Job)) : Prop := (akeys l).Nodup

/-- A scheduler state before the first dispatch: job graph built, no job
started or completed, counters zero and the exclusivity flag down. -/
def InitState (d : DooState) : Prop :=
  d.startedJobs = 0 ∧ d.completedJobs = 0 ∧ d.isExclusiveRunning = false ∧
    KeysNodup d.jobs ∧ ∀ p ∈ d.jobs, p.2.started = false ∧ p.2.completed = false

/-- One transition of the scheduler loop: either the controller
dispatches a job that passes every admission check of nextJob (stated
for an arbitrary map iteration order), or one in-flight job finishes
with some error value and its completion event is processed by
didComplete. -/
inductive SchedStep : DooState → DooState → Prop where
  | dispatch (name : String) (j : Job) (d : DooState) :
      alookup name d.jobs = some j →
      d.isExclusiveRunning = false →
      j.started = false →
      ¬ 0 < j.dependencyCount →
      (jobExclusive j = true → hasRunningJobs d = false) →
      SchedStep d (startJob name j d)
  | complete (name : String) (j : Job) (e : Option String) (fuel : Nat)
      (d d' : DooState) :
      alookup name d.jobs = some j →
      j.started = true →
      j.completed = false →
      didComplete fuel (jobDone e j)
        { d with jobs := aset name (jobDone e j) d.jobs } = .ok d' →
      SchedStep d d'

/-- Reachability of a scheduler state from an initial state. -/
def Reach (d0 d : DooState) : Prop := Relation.ReflTransGen SchedStep d0 d

/-- A dispatched, not yet completed job. -/
def inFlight (j : Job) : Bool := j.started && !j.completed

/-! Projections used by the scheduler invariant: the job graph builder
may only append fresh unstarted jobs and touch dependency bookkeeping,
so the name, flight flags and target of every existing entry survive it. -/

/-- The observable part of a job map entry for flight accounting. -/
def jobView (p : String × Job) : String × Bool × Bool × Option Target :=
  (p.1, p.2.started, p.2.completed, p.2.target)

/-- Views of a whole job map. -/
def viewsOf (l : List (String × Job)) : List (String × Bool × Bool × Option Target) :=
  l.map jobView

/-- Flight status read off a view. -/
def viewInFlight (v : String × Bool × Bool × Option Target) : Bool :=
  v.2.1 && !v.2.2.1

/-- Exclusivity read off a view. -/
def viewExcl (v : String × Bool × Bool × Option Target) : Bool :=
  match v.2.2.2 with
  | some t => t.isExclusive
  | none => false

/-- Number of in-flight jobs. -/
def countIF (l : List (String × Job)) : Nat :=
  ((viewsOf l).filter viewInFlight).length

/-- Some exclusive job is in flight. -/
def ExclInFlight (l : List (String × Job)) : Prop :=
  ∃ v ∈ viewsOf l, viewInFlight v = true ∧ viewExcl v = true

/-- The scheduler invariant: job names are unique; the dispatch and
completion counters measure the in-flight set; the exclusivity flag is
raised exactly while an exclusive job is in flight; an exclusive job in
flight is the only job in flight; and a completed job has been
dispatched. -/
def SchedInv (d : DooState) : Prop :=
  KeysNodup d.jobs ∧
  d.startedJobs = d.completedJobs + countIF d.jobs ∧
  (d.isExclusiveRunning = true ↔ ExclInFlight d.jobs) ∧
  (ExclInFlight d.jobs → countIF d.jobs = 1) ∧
  (∀ v ∈ viewsOf d.jobs, v.2.2.1 = true → v.2.1 = true)

/-- State change profile of the job graph builder: views of existing
jobs survive in order, any appended jobs are unstarted, the remaining
doo fields are untouched and key uniqueness is preserved. -/
def BuilderEff (d d' : DooState) : Prop :=
  (∃ ext, viewsOf d'.jobs = viewsOf d.jobs ++ ext ∧
      ∀ q ∈ ext, q.2.1 = false ∧ q.2.2.1 = false) ∧
  d'.targetMap = d.targetMap ∧
  d'.startedJobs = d.startedJobs ∧
  d'.completedJobs = d.completedJobs ∧
  d'.didError = d.didError ∧
  d'.isExclusiveRunning = d.isExclusiveRunning ∧
  d'.ignoreDependencies = d.ignoreDependencies ∧
  (KeysNodup d.jobs → KeysNodup d'.jobs)

/-! ## Validator behavior, stated independently of the two-pass fold -/

/-- The duplicate-name bookkeeping the first pass needs from earlier
targets: the config identity and config path of the target currently
registered under each name. -/
def cfgOf (m : List (String × Target)) : List (String × Nat × String) :=
  m.map (fun p => (p.1, p.2.configId, p.2.configPath))

/-- Registration of one target into the duplicate-name bookkeeping:
a nameless target registers nothing, any other overwrites its name. -/
def cfgMapStep (m : List (String × Nat × String)) (t : Target) :
    List (String × Nat × String) :=
  if t.name = "" then m else aset t.name (t.configId, t.configPath) m

/-- The errors one target contributes in the first pass: the missing
name error (and nothing else) for a nameless target; otherwise a
duplicate error whose message depends on whether the colliding earlier
definition shares the config source, then either the invalid runner
error or, for a valid non-shell runner with an empty command, the
missing command error. -/
def targetErrsSpec (m : List (String × Nat × String)) (t : Target) : List String :=
  if t.name = "" then ["Target without name in " ++ t.configPath]
  else
    (match alookup t.name m with
     | some other =>
       if other.1 = t.configId then
         ["Duplicate definition for " ++ t.name ++ " in " ++ t.configPath]
       else
         ["Duplicate definition for " ++ t.name ++ " in " ++ t.configPath ++
           " and " ++ other.2]
     | none => []) ++
    (if !isValidRunner t.runner then
       ["Target " ++ t.name ++ " in " ++ t.configPath ++
         " has invalid runner: " ++ t.runner]
     else if t.runner ≠ "shell" && t.command = "" then
       ["Target " ++ t.name ++ " in " ++ t.configPath ++ " is missing command"]
     else [])

/-- All first-pass errors, target by target in input order. -/
def pass1Spec (m : List (String × Nat × String)) : List Target → List String
  | [] => []
  | t :: rest => targetErrsSpec m t ++ pass1Spec (cfgMapStep m t) rest

/-- The name index produced by the first pass: nameless targets are
skipped, later definitions overwrite earlier ones. -/
def storeMap (m : List (String × Target)) : List Target → List (String × Target)
  | [] => m
  | t :: rest => storeMap (if t.name = "" then m else aset t.name t m) rest

/-- The unknown-dependency errors one target's dependency list yields
against a fixed name index: one error per dependency that resolves to
no entry. -/
def depErrsSpec (tmap : List (String × Target)) (tname : String) :
    List String → List String
  | [] => []
  | dep :: deps =>
    (if (alookup dep tmap).isSome then []
     else [tname ++ " depends on unknown target " ++ dep]) ++
      depErrsSpec tmap tname deps

/-- The unknown-dependency errors of the second pass against a fixed
name index, target by target and dependency by dependency. -/
def pass2SpecOn (tmap : List (String × Target)) : List Target → List String
  | [] => []
  | t :: rest => depErrsSpec tmap t.name t.dependencies ++ pass2SpecOn tmap rest

/-- The dependant entries one target's dependency list contributes to
the map entry registered under the name n: one entry per occurrence of
n among the dependencies. -/
def dependantsOf (n tname : String) : List String → List String
  | [] => []
  | dep :: deps => (if dep = n then [tname] else []) ++ dependantsOf n tname deps

/-- The dependant names accumulated on the map entry registered under
the name n over the whole second pass, in input order. -/
def dependantsSpec : List Target → String → List String
  | [], _ => []
  | t :: rest, n => dependantsOf n t.name t.dependencies ++ dependantsSpec rest n

/-- Erasure of the invokes list of a target, used to state that the
validator never reads it. -/
def clearInvokes (t : Target) : Target := { t with invokes := [] }

/-! ## Concrete states used by the witnesses and counterexamples -/

/-- A tmux target invoked by exInvoker. -/
def exTmux : Target :=
  ⟨"b", [], [], "", "tmux", "sleep 5", [], [], 0, "p.toml"⟩

/-- A tmux target whose Invokes list names exTmux. -/
def exInvoker : Target :=
  ⟨"a", [], ["b"], "", "tmux", "run", [], [], 0, "p.toml"⟩

/-- The job of exInvoker after its worker finished with an error. -/
def exFailedJob : Job :=
  ⟨some exInvoker, TargetStart, 0, [], true, true, some "boom"⟩

/-- A doo state in which the failed exInvoker job is about to be drained
from the completion channel. -/
def exState1 : DooState :=
  ⟨[("a", exInvoker), ("b", exTmux)], [("a", exFailedJob)], 1, 0, false, false, false⟩

/-- The doo state after didComplete processed exFailedJob: the error is
recorded and the Invokes expansion has registered a start job for b. -/
def exState1' : DooState :=
  ⟨[("a", exInvoker), ("b", exTmux)],
    [("a", exFailedJob), ("b", ⟨some exTmux, TargetStart, 0, [], false, false, none⟩)],
    1, 1, true, false, false⟩

/-- A doo state holding a memoized job for the name a. -/
def exMemoJob : Job :=
  ⟨some exInvoker, TargetStart, 0, [], false, false, none⟩

/-- State used by the memoization witness. -/
def exMemoState : DooState :=
  ⟨[("a", exInvoker), ("b", exTmux)], [("a", exMemoJob)], 0, 0, false, false, false⟩

/-- A shell target named s. -/
def exShell : Target :=
  ⟨"s", [], [], "", "shell", "echo hi", [], [], 0, "p.toml"⟩

/-- An initial scheduler state with one unstarted shell job. -/
def exInit : DooState :=
  ⟨[("s", exShell)], [("s", ⟨some exShell, TargetStart, 0, [], false, false, none⟩)],
    0, 0, false, false, false⟩

/-- Two targets depending on each other. -/
def exCycA : Target :=
  ⟨"ca", ["cb"], [], "", "tmux", "x", [], ["cb"], 0, "p.toml"⟩

/-- Second half of the dependency cycle. -/
def exCycB : Target :=
  ⟨"cb", ["ca"], [], "", "tmux", "y", [], ["ca"], 0, "p.toml"⟩

/-- A deadlocked scheduler state: both cycle jobs wait on each other,
nothing runs, nothing is admissible and no error was observed. -/
def exDead : DooState :=
  ⟨[("ca", exCycA), ("cb", exCycB)],
    [("ca", ⟨some exCycA, TargetStart, 1, ["cb"], false, false, none⟩),
     ("cb", ⟨some exCycB, TargetStart, 1, ["ca"], false, false, none⟩)],
    0, 0, false, false, false⟩

/-- A named target with an unrecognized runner and an empty command. -/
def exBogus : Target :=
  ⟨"a", [], [], "", "bogus", "", [], [], 0, "p.toml"⟩

/-! # Theorems -/

/-! ## Generic association list lemmas -/

theorem akeys_nil {α : Type} : akeys ([] : List (String × α)) = [] := rfl

theorem akeys_cons {α : Type} (k : String) (v : α) (l : List (String × α)) :
    akeys ((k, v) :: l) = k :: akeys l := rfl

theorem akeys_append {α : Type} (l₁ l₂ : List (String × α)) :
    akeys (l₁ ++ l₂) = akeys l₁ ++ akeys l₂ := by
  simp [akeys]

theorem alookup_aset_self {α : Type} (k : String) (v : α) (l : List (String × α)) :
    alookup k (aset k v l) = some v := by
  induction l with
  | nil => simp [aset, alookup]
  | cons p rest ih =>
    obtain ⟨k', w⟩ := p
    by_cases h : k' = k <;> simp [aset, alookup, h, ih]

theorem alookup_aset_ne {α : Type} {k k' : String} (h : ¬ k = k') (v : α)
    (l : List (String × α)) : alookup k' (aset k v l) = alookup k' l := by
  induction l with
  | nil => simp [aset, alookup, h]
  | cons p rest ih =>
    obtain ⟨k'', w⟩ := p
    by_cases h2 : k'' = k
    · subst h2
      simp [aset, alookup, h, ih]
    · simp [aset, alookup, h2, ih]

theorem aset_not_mem {α : Type} {k : String} {l : List (String × α)}
    (h : alookup k l = none) (v : α) : aset k v l = l ++ [(k, v)] := by
  induction l with
  | nil => simp [aset]
  | cons p rest ih =>
    obtain ⟨k', w⟩ := p
    by_cases h2 : k' = k
    · simp [alookup, h2] at h
    · simp [alookup, h2] at h
      simp [aset, h2, ih h]

theorem alookup_amodify {α : Type} (k k' : String) (f : α → α)
    (l : List (String × α)) :
    alookup k' (amodify k f l) =
      if k = k' then (alookup k' l).map f else alookup k' l := by
  induction l with
  | nil => simp [amodify, alookup]
  | cons p rest ih =>
    obtain ⟨k'', w⟩ := p
    by_cases h2 : k'' = k
    · subst h2
      by_cases h3 : k'' = k'
      · subst h3
        simp [amodify, alookup]
      · simp [amodify, alookup, h3, ih]
    · by_cases h3 : k'' = k'
      · subst h3
        have h4 : ¬ k = k'' := fun hh => h2 hh.symm
        simp [amodify, alookup, h2, h4]
      · simp [amodify, alookup, h2, h3, ih]

theorem akeys_amodify {α : Type} (k : String) (f : α → α) (l : List (String × α)) :
    akeys (amodify k f l) = akeys l := by
  induction l with
  | nil => rfl
  | cons p rest ih =>
    obtain ⟨k', w⟩ := p
    by_cases h : k' = k <;> simp only [amodify, h, if_true, if_false,
      akeys_cons, ih]

theorem alookup_none_iff {α : Type} (k : String) (l : List (String × α)) :
    alookup k l = none ↔ ¬ k ∈ akeys l := by
  induction l with
  | nil => simp [alookup, akeys_nil]
  | cons p rest ih =>
    obtain ⟨k', w⟩ := p
    by_cases h : k' = k
    · subst h
      simp [alookup, akeys_cons]
    · have h' : ¬ k = k' := fun hh => h hh.symm
      simp [alookup, akeys_cons, h, h', ih]

theorem alookup_isSome_iff {α : Type} (k : String) (l : List (String × α)) :
    (alookup k l).isSome ↔ k ∈ akeys l := by
  induction l with
  | nil => simp [alookup, akeys_nil]
  | cons p rest ih =>
    obtain ⟨k', w⟩ := p
    by_cases h : k' = k
    · subst h
      simp [alookup, akeys_cons]
    · have h' : ¬ k = k' := fun hh => h hh.symm
      simp [alookup, akeys_cons, h, h', ih]

theorem alookup_split {α : Type} {k : String} {v : α} :
    ∀ {l : List (String × α)}, alookup k l = some v →
      ∃ l₁ l₂, l = l₁ ++ (k, v) :: l₂ ∧ ¬ k ∈ akeys l₁ := by
  intro l
  induction l with
  | nil => intro h; simp [alookup] at h
  | cons p rest ih =>
    obtain ⟨k', w⟩ := p
    intro h
    by_cases h2 : k' = k
    · subst h2
      simp [alookup] at h
      exact ⟨[], rest, by simp [h], by simp [akeys_nil]⟩
    · simp [alookup, h2] at h
      obtain ⟨l₁, l₂, heq, hmem⟩ := ih h
      refine ⟨(k', w) :: l₁, l₂, by simp [heq], ?_⟩
      rw [akeys_cons]
      simp only [List.mem_cons]
      rintro (h3 | h3)
      · exact h2 h3.symm
      · exact hmem h3

theorem aset_split {α : Type} {k : String} {l₁ : List (String × α)}
    (h : ¬ k ∈ akeys l₁) (v v' : α) (l₂ : List (String × α)) :
    aset k v' (l₁ ++ (k, v) :: l₂) = l₁ ++ (k, v') :: l₂ := by
  induction l₁ with
  | nil => simp [aset]
  | cons p rest ih =>
    obtain ⟨k', w⟩ := p
    rw [akeys_cons] at h
    simp only [List.mem_cons] at h
    push_neg at h
    have h2 : ¬ k' = k := fun hh => h.1 hh.symm
    simp [aset, h2, ih h.2]

theorem akeys_aset {α : Type} {k : String} {l : List (String × α)} (v : α)
    (h : k ∈ akeys l) : akeys (aset k v l) = akeys l := by
  induction l with
  | nil => simp [akeys_nil] at h
  | cons p rest ih =>
    obtain ⟨k', w⟩ := p
    by_cases h2 : k' = k
    · simp [aset, h2, akeys_cons]
    · rw [akeys_cons] at h
      simp only [List.mem_cons] at h
      rcases h with h | h
      · exact absurd h.symm h2
      · simp [aset, h2, akeys_cons, ih h]

/-! ## Sleep schedule -/

/-- The iterated doubling of expSleepTime is 50 ms times two to the i. -/
theorem expSleepTime_eq (i : Nat) : expSleepTime i = 50000000 * 2 ^ i := by
  induction i with
  | zero => rfl
  | succ n ih => simp [expSleepTime, ih, Nat.pow_succ]; ring

/-! ## C5: exhaustion behavior of the readiness probe -/

/-- C5: for an address that is never ready (every check returns not
listening without error), the probe performs exactly 10 checks, sleeps
expSleepTime i = 50 ms times 2 to the i after the i-th failed check for
i = 0 .. 9 (50, 100, 200, 400, 800, 1600, 3200, 6400, 12800, 25600
milliseconds) and then fails the job with the didn't-listen message,
which runJob returns for the job. -/
theorem c5_probe_exhaustion (addr : String) :
    probeFrom (fun _ => (false, none)) addr 0 =
      (⟨10, [50000000, 100000000, 200000000, 400000000, 800000000, 1600000000,
          3200000000, 6400000000, 12800000000, 25600000000]⟩,
        .error ("service didn't listen to: " ++ addr)) ∧
    (∀ i, expSleepTime i = 50000000 * 2 ^ i) ∧
    runJobListens (fun _ _ => (false, none)) [addr] =
      .error ("service didn't listen to: " ++ addr) := by
  have h : probeFrom (fun _ => (false, none)) addr 0 =
      (⟨10, [50000000, 100000000, 200000000, 400000000, 800000000, 1600000000,
          3200000000, 6400000000, 12800000000, 25600000000]⟩,
        .error ("service didn't listen to: " ++ addr)) := by
    simp [probeFrom, expSleepTime]
  exact ⟨h, expSleepTime_eq, by simp [runJobListens, h]⟩

/-- Witness for c5_probe_exhaustion at a concrete address. -/
theorem c5_probe_exhaustion_witness :
    probeFrom (fun _ => (false, none)) "127.0.0.1:65000" 0 =
      (⟨10, [50000000, 100000000, 200000000, 400000000, 800000000, 1600000000,
          3200000000, 6400000000, 12800000000, 25600000000]⟩,
        .error ("service didn't listen to: 127.0.0.1:65000")) :=
  (c5_probe_exhaustion "127.0.0.1:65000").1

/-! ## C6: failure message of a backend subprocess -/

/-- C6 counterexample: the claim says a non-empty combined output is
always appended to the failure message, but combinedOutputError only
appends when the output holds more than one byte: the one-byte output x
is non-empty yet the message is the underlying error alone. -/
theorem c6_counterexample :
    combinedOutputError "x" (some "exit status 1") = .error "exit status 1" ∧
    ¬ "x" = "" ∧
    ¬ (Except.error "exit status 1" : Except String String) =
        .error ("exit status 1" ++ "\n" ++ "x") := by
  refine ⟨by decide, by decide, by decide⟩

/-- C6 (amended): for a backend subprocess whose exit is non-success, the
returned failure message is the underlying error followed by a newline
and the combined output whenever that output is longer than one byte;
when the output is empty or a single byte, the message is the underlying
error alone. -/
theorem c6_output_append (output e : String) :
    (2 ≤ output.utf8ByteSize →
      combinedOutputError output (some e) = .error (e ++ "\n" ++ output)) ∧
    (output.utf8ByteSize ≤ 1 →
      combinedOutputError output (some e) = .error e) := by
  refine ⟨fun h => ?_, fun h => ?_⟩
  · have h2 : 1 < output.utf8ByteSize := h
    simp [combinedOutputError, h2]
  · have h2 : ¬ 1 < output.utf8ByteSize := by omega
    simp [combinedOutputError, h2]

/-- Witness for c6_output_append at concrete outputs. -/
theorem c6_output_append_witness :
    combinedOutputError "ab" (some "boom") = .error ("boom" ++ "\n" ++ "ab") ∧
    combinedOutputError "" (some "boom") = .error "boom" :=
  ⟨(c6_output_append "ab" "boom").1 (by decide),
   (c6_output_append "" "boom").2 (by decide)⟩

/-! ## C10: the launchd stop loop has no attempt bound -/

/-- The readiness probe, by contrast, never performs more than 10 - i
checks when started at attempt i. -/
theorem probeFrom_checks_le (check : Nat → Bool × Option String) (addr : String) :
    ∀ (n i : Nat), 10 - i ≤ n → ((probeFrom check addr i).1).checks ≤ 10 - i := by
  intro n
  induction n with
  | zero =>
    intro i h
    have h10 : 10 ≤ i := by omega
    simp [probeFrom, h10]
  | succ n ih =>
    intro i h
    by_cases h10 : 10 ≤ i
    · simp [probeFrom, h10]
    · rcases hc : check i with ⟨b, e⟩
      cases e with
      | some e =>
        conv_lhs => rw [probeFrom]
        rw [dif_neg h10]
        simp only [hc]
        omega
      | none =>
        cases b with
        | true =>
          conv_lhs => rw [probeFrom]
          rw [dif_neg h10]
          simp only [hc]
          omega
        | false =>
          have h2 := ih (i + 1) (by omega)
          conv_lhs => rw [probeFrom]
          rw [dif_neg h10]
          simp only [hc]
          omega

/-- C10: the launchd stop retry loop has no bound on its attempts: under
a perpetual 9216 wait status it never returns however much fuel the
model grants, and whenever it does return some invocation produced a
wait status other than 9216 — in contrast to the readiness probe, which
performs at most 10 checks. -/
theorem c10_launchd_stop_unbounded :
    (∀ boot : Nat → BootoutResult, (∀ i, (boot i).status = some 9216) →
        ∀ fuel i, launchdStopLoop boot fuel i = none) ∧
    (∀ (boot : Nat → BootoutResult) (fuel i : Nat) (r : Option String),
        launchdStopLoop boot fuel i = some r →
        ∃ k s, i ≤ k ∧ (boot k).status = some s ∧ ¬ s = 9216) ∧
    (∀ (check : Nat → Bool × Option String) (addr : String),
        ((probeFrom check addr 0).1).checks ≤ 10) := by
  refine ⟨fun boot h fuel => ?_, fun boot fuel => ?_, fun check addr => ?_⟩
  · induction fuel with
    | zero => intro i; rfl
    | succ n ih =>
      intro i
      simp [launchdStopLoop, h i]
      exact ih (i + 1)
  · induction fuel with
    | zero => intro i r h; simp [launchdStopLoop] at h
    | succ n ih =>
      intro i r h
      rcases hst : (boot i).status with _ | s
      · simp [launchdStopLoop, hst] at h
        obtain ⟨k, s, hk, hks, hs⟩ := ih (i + 1) r h
        exact ⟨k, s, by omega, hks, hs⟩
      · by_cases h9 : s = 9216
        · subst h9
          simp [launchdStopLoop, hst] at h
          obtain ⟨k, s, hk, hks, hs⟩ := ih (i + 1) r h
          exact ⟨k, s, by omega, hks, hs⟩
        · exact ⟨i, s, Nat.le_refl i, hst, h9⟩
  · simpa using probeFrom_checks_le check addr 10 0 (by omega)

/-- Witness for c10_launchd_stop_unbounded at concrete oracles. -/
theorem c10_launchd_stop_unbounded_witness :
    launchdStopLoop (fun _ => ⟨some 9216, some "in progress"⟩) 25 0 = none ∧
    (∃ k s, 0 ≤ k ∧
      ((fun _ => (⟨some 768, some "no such process"⟩ : BootoutResult)) k).status =
        some s ∧ ¬ s = 9216) ∧
    ((probeFrom (fun _ => (false, none)) "x:1" 0).1).checks ≤ 10 := by
  refine ⟨c10_launchd_stop_unbounded.1 _ (fun i => rfl) 25 0, ?_, ?_⟩
  · exact c10_launchd_stop_unbounded.2.1 _ 1 0 none (by simp [launchdStopLoop])
  · exact c10_launchd_stop_unbounded.2.2 _ _

/-! ## C2: non-refused dial errors in the readiness probe -/

/-- C2 counterexample: with nothing on the filesystem and a dial that
fails with a non-refused error, checkListens surfaces the error, and the
probe returns that error after a single check with no retries — the job
fails before attempt exhaustion and not with the didn't-listen message,
contradicting the claim that a non-refused dial error is retried and
never fails the job before exhaustion. -/
theorem c2_counterexample :
    checkListens (fun _ => false) (fun _ => .otherError "connection timed out")
        "127.0.0.1:80" = (true, some "connection timed out") ∧
    probeFrom
        (fun _ => checkListens (fun _ => false)
          (fun _ => .otherError "connection timed out") "127.0.0.1:80")
        "127.0.0.1:80" 0 =
      (⟨1, []⟩, .error "connection timed out") ∧
    ¬ (Except.error "connection timed out" : Except String Unit) =
        .error ("service didn't listen to: 127.0.0.1:80") := by
  have hf : ¬ ("127.0.0.1:80".front = '/') := by decide
  refine ⟨by simp [checkListens, hf], ?_, by decide⟩
  conv_lhs => rw [probeFrom]
  simp [checkListens, hf]

/-- C2 (amended): for a TCP address, a refused dial makes checkListens
report not-ready without error and the probe sleeps and retries; any
other dial error makes checkListens surface the error and the probe
fails the job with that error at that very attempt; the didn't-listen
message arises exactly when the attempt counter reaches 10. -/
theorem c2_dial_error_behavior :
    (∀ (fs : String → Bool) (dial : String → DialOutcome) (addr : String),
        ¬ addr.front = '/' → dial addr = .refused →
        checkListens fs dial addr = (false, none)) ∧
    (∀ (fs : String → Bool) (dial : String → DialOutcome) (addr e : String),
        ¬ addr.front = '/' → dial addr = .otherError e →
        checkListens fs dial addr = (true, some e)) ∧
    (∀ (check : Nat → Bool × Option String) (addr : String) (i : Nat),
        i < 10 → check i = (false, none) →
        probeFrom check addr i =
          (⟨((probeFrom check addr (i + 1)).1).checks + 1,
             expSleepTime i :: ((probeFrom check addr (i + 1)).1).sleeps⟩,
            (probeFrom check addr (i + 1)).2)) ∧
    (∀ (check : Nat → Bool × Option String) (addr : String) (i : Nat) (b : Bool)
        (e : String), i < 10 → check i = (b, some e) →
        probeFrom check addr i = (⟨1, []⟩, .error e)) ∧
    (∀ (check : Nat → Bool × Option String) (addr : String) (i : Nat), 10 ≤ i →
        probeFrom check addr i =
          (⟨0, []⟩, .error ("service didn't listen to: " ++ addr))) := by
  refine ⟨fun fs dial addr h hd => ?_, fun fs dial addr e h hd => ?_,
    fun check addr i h hc => ?_, fun check addr i b e h hc => ?_,
    fun check addr i h => ?_⟩
  · simp [checkListens, h, hd]
  · simp [checkListens, h, hd]
  · have h10 : ¬ 10 ≤ i := by omega
    conv_lhs => rw [probeFrom]
    simp [h10, hc]
  · have h10 : ¬ 10 ≤ i := by omega
    conv_lhs => rw [probeFrom]
    simp [h10, hc]
  · simp [probeFrom, h]

/-- Witness for c2_dial_error_behavior at concrete oracles. -/
theorem c2_dial_error_behavior_witness :
    checkListens (fun _ => false) (fun _ => .refused) "h:1" = (false, none) ∧
    checkListens (fun _ => false) (fun _ => .otherError "eperm") "h:1" =
      (true, some "eperm") ∧
    probeFrom (fun _ => (true, some "eperm")) "h:1" 3 = (⟨1, []⟩, .error "eperm") ∧
    probeFrom (fun _ => (false, none)) "h:1" 10 =
      (⟨0, []⟩, .error ("service didn't listen to: " ++ "h:1")) := by
  refine ⟨c2_dial_error_behavior.1 _ _ _ (by decide) rfl,
    c2_dial_error_behavior.2.1 _ _ _ _ (by decide) rfl,
    c2_dial_error_behavior.2.2.2.1 _ _ 3 true "eperm" (by omega) rfl,
    c2_dial_error_behavior.2.2.2.2 _ _ 10 (by omega)⟩

/-! ## C4: one job per target and run -/

/-- C4: both job builders are memoized on the job map keyed by target
name: when a job for the name already exists, createStartJob and
createStopJob return it and leave the whole state untouched — no second
job is created and no dependency edge is added, whatever path reached
the name (dependency recursion or Invokes expansion). -/
theorem c4_job_memoization (d : DooState) (name : String) (j : Job) (fuel : Nat)
    (h : alookup name d.jobs = some j) :
    createStartJob (fuel + 1) name d = .ok d ∧
    createStopJob (fuel + 1) name d = .ok d := by
  constructor
  · rw [createStartJob]
    simp [h]
  · rw [createStopJob]
    simp [h]

/-- Witness for c4_job_memoization on a state holding a memoized job. -/
theorem c4_job_memoization_witness :
    alookup "a" exMemoState.jobs = some exMemoJob ∧
    createStartJob 1 "a" exMemoState = .ok exMemoState ∧
    createStopJob 1 "a" exMemoState = .ok exMemoState := by
  have h : alookup "a" exMemoState.jobs = some exMemoJob := by decide
  exact ⟨h, (c4_job_memoization exMemoState "a" exMemoJob 0 h).1,
    (c4_job_memoization exMemoState "a" exMemoJob 0 h).2⟩

/-! ## Effect of the job graph builder on scheduler-visible state -/

theorem viewsOf_nil : viewsOf [] = [] := rfl

theorem viewsOf_cons (p : String × Job) (l : List (String × Job)) :
    viewsOf (p :: l) = jobView p :: viewsOf l := rfl

theorem viewsOf_append (l₁ l₂ : List (String × Job)) :
    viewsOf (l₁ ++ l₂) = viewsOf l₁ ++ viewsOf l₂ := by
  simp [viewsOf]

theorem akeys_eq_views_fst (l : List (String × Job)) :
    akeys l = (viewsOf l).map Prod.fst := by
  simp [akeys, viewsOf, jobView]

theorem viewsOf_amodify (k : String) (f : Job → Job)
    (hf : ∀ j, (f j).started = j.started ∧ (f j).completed = j.completed ∧
      (f j).target = j.target)
    (l : List (String × Job)) : viewsOf (amodify k f l) = viewsOf l := by
  induction l with
  | nil => rfl
  | cons p rest ih =>
    obtain ⟨k', w⟩ := p
    by_cases h : k' = k
    · simp only [amodify, h, if_true, viewsOf_cons, ih, jobView,
        (hf w).1, (hf w).2.1, (hf w).2.2]
    · simp only [amodify, h, if_false, viewsOf_cons, ih]

theorem viewsOf_addJobDependency (a b : String) (l : List (String × Job)) :
    viewsOf (addJobDependency a b l) = viewsOf l := by
  unfold addJobDependency
  rw [viewsOf_amodify, viewsOf_amodify]
  · intro j; exact ⟨rfl, rfl, rfl⟩
  · intro j; exact ⟨rfl, rfl, rfl⟩

theorem akeys_addJobDependency (a b : String) (l : List (String × Job)) :
    akeys (addJobDependency a b l) = akeys l := by
  unfold addJobDependency
  rw [akeys_amodify, akeys_amodify]

theorem viewsOf_decDependents :
    ∀ (names : List String) (l : List (String × Job)),
      viewsOf (decDependents names l) = viewsOf l := by
  intro names
  induction names with
  | nil => intro l; rfl
  | cons nm rest ih =>
    intro l
    simp only [decDependents]
    rw [ih, viewsOf_amodify]
    intro j; exact ⟨rfl, rfl, rfl⟩

theorem akeys_decDependents :
    ∀ (names : List String) (l : List (String × Job)),
      akeys (decDependents names l) = akeys l := by
  intro names
  induction names with
  | nil => intro l; rfl
  | cons nm rest ih =>
    intro l
    simp only [decDependents]
    rw [ih, akeys_amodify]

theorem builderEff_refl (d : DooState) : BuilderEff d d :=
  ⟨⟨[], by simp, by simp⟩, rfl, rfl, rfl, rfl, rfl, rfl, id⟩

theorem builderEff_trans {a b c : DooState} (h1 : BuilderEff a b)
    (h2 : BuilderEff b c) : BuilderEff a c := by
  obtain ⟨⟨e1, hv1, he1⟩, ht1, hs1, hc1, hd1, hx1, hi1, hn1⟩ := h1
  obtain ⟨⟨e2, hv2, he2⟩, ht2, hs2, hc2, hd2, hx2, hi2, hn2⟩ := h2
  refine ⟨⟨e1 ++ e2, by rw [hv2, hv1, List.append_assoc], ?_⟩,
    ht2.trans ht1, hs2.trans hs1, hc2.trans hc1, hd2.trans hd1,
    hx2.trans hx1, hi2.trans hi1, fun hn => hn2 (hn1 hn)⟩
  intro q hq
  rcases List.mem_append.mp hq with hq | hq
  · exact he1 q hq
  · exact he2 q hq

theorem builderEff_aset_fresh {d : DooState} {name : String}
    (h : alookup name d.jobs = none) {j : Job} (hs : j.started = false)
    (hc : j.completed = false) :
    BuilderEff d { d with jobs := aset name j d.jobs } := by
  refine ⟨⟨[jobView (name, j)], ?_, ?_⟩, rfl, rfl, rfl, rfl, rfl, rfl, ?_⟩
  · simp [aset_not_mem h, viewsOf_append, viewsOf_cons, viewsOf_nil]
  · intro q hq
    simp only [List.mem_singleton] at hq
    subst hq
    exact ⟨hs, hc⟩
  · intro hn
    rw [KeysNodup, aset_not_mem h, akeys_append, akeys_cons, akeys_nil]
    rw [KeysNodup] at hn
    have hmem : ¬ name ∈ akeys d.jobs := (alookup_none_iff name d.jobs).mp h
    simp [List.nodup_append, hn, hmem]

theorem builderEff_addDep (a b : String) (d : DooState) :
    BuilderEff d { d with jobs := addJobDependency a b d.jobs } := by
  refine ⟨⟨[], by simp [viewsOf_addJobDependency], by simp⟩,
    rfl, rfl, rfl, rfl, rfl, rfl, ?_⟩
  intro hn
  rw [KeysNodup, akeys_addJobDependency]
  exact hn

theorem BuilderEff.keys_mono {d d' : DooState} (h : BuilderEff d d')
    {k : String} (hk : k ∈ akeys d.jobs) : k ∈ akeys d'.jobs := by
  obtain ⟨⟨ext, hv, _⟩, _⟩ := h
  rw [akeys_eq_views_fst, hv, List.map_append]
  rw [akeys_eq_views_fst] at hk
  exact List.mem_append.mpr (Or.inl hk)

/-- The builder only ever appends unstarted jobs and touches dependency
bookkeeping: every run of createStartJob that returns ok has the
BuilderEff profile, and so does every run of its dependency loop. -/
theorem createStartJob_eff : ∀ fuel : Nat,
    (∀ name d d', createStartJob fuel name d = .ok d' → BuilderEff d d') ∧
    (∀ name l d d', startJobDeps fuel name l d = .ok d' → BuilderEff d d') := by
  intro fuel
  induction fuel with
  | zero =>
    constructor
    · intro name d d' h
      rw [createStartJob] at h
      cases h
    · intro name l d d' h
      cases l with
      | nil =>
        rw [startJobDeps] at h
        injection h with h2
        subst h2
        exact builderEff_refl _
      | cons dep rest =>
        simp [startJobDeps, createStartJob] at h
  | succ n ih =>
    have hstart : ∀ name d d', createStartJob (n + 1) name d = .ok d' →
        BuilderEff d d' := by
      intro name d d' h
      rw [createStartJob] at h
      cases hm : alookup name d.jobs with
      | some j =>
        rw [hm] at h
        injection h with h2
        subst h2
        exact builderEff_refl _
      | none =>
        rw [hm] at h
        cases ht : alookup name d.targetMap with
        | none =>
          rw [ht] at h
          cases h
        | some t =>
          rw [ht] at h
          simp only [] at h
          have e1 : BuilderEff d { d with jobs := aset name (⟨some t, TargetStart, 0, [], false, false, none⟩ : Job) d.jobs } := builderEff_aset_fresh hm rfl rfl
          split at h
          · injection h with h2
            subst h2
            exact e1
          · exact builderEff_trans e1 (ih.2 name t.dependencies _ _ h)
    refine ⟨hstart, ?_⟩
    intro name l
    induction l with
    | nil =>
      intro d d' h
      rw [startJobDeps] at h
      injection h with h2
      subst h2
      exact builderEff_refl _
    | cons dep rest ihl =>
      intro d d' h
      rw [startJobDeps] at h
      cases hcs : createStartJob (n + 1) dep d with
      | error e =>
        rw [hcs] at h
        cases h
      | ok d1 =>
        rw [hcs] at h
        have e1 := hstart dep d d1 hcs
        have e2 := builderEff_addDep name dep d1
        exact builderEff_trans (builderEff_trans e1 e2) (ihl _ _ h)

/-- A successful createStartJob leaves its argument name registered in
the job map. -/
theorem createStartJob_mem {fuel : Nat} {name : String} {d d' : DooState}
    (h : createStartJob fuel name d = .ok d') : name ∈ akeys d'.jobs := by
  cases fuel with
  | zero =>
    rw [createStartJob] at h
    cases h
  | succ n =>
    rw [createStartJob] at h
    cases hm : alookup name d.jobs with
    | some j =>
      rw [hm] at h
      injection h with h2
      subst h2
      exact (alookup_isSome_iff name d.jobs).mp (by rw [hm]; rfl)
    | none =>
      rw [hm] at h
      cases ht : alookup name d.targetMap with
      | none =>
        rw [ht] at h
        cases h
      | some t =>
        rw [ht] at h
        simp only [] at h
        have hd1 : name ∈ akeys
            (aset name (⟨some t, TargetStart, 0, [], false, false, none⟩ : Job)
              d.jobs) := by
          apply (alookup_isSome_iff _ _).mp
          rw [alookup_aset_self]
          rfl
        split at h
        · injection h with h2
          subst h2
          exact hd1
        · exact BuilderEff.keys_mono ((createStartJob_eff n).2 name _ _ _ h) hd1

/-- The Invokes expansion loop has the builder profile as well. -/
theorem invokeAll_eff : ∀ (l : List String) (fuel : Nat) (d d' : DooState),
    invokeAll fuel l d = .ok d' → BuilderEff d d' := by
  intro l
  induction l with
  | nil =>
    intro fuel d d' h
    rw [invokeAll] at h
    injection h with h2
    subst h2
    exact builderEff_refl _
  | cons nm rest ih =>
    intro fuel d d' h
    rw [invokeAll] at h
    cases hcs : createStartJob fuel nm d with
    | error e =>
      rw [hcs] at h
      cases h
    | ok d1 =>
      rw [hcs] at h
      exact builderEff_trans ((createStartJob_eff fuel).1 nm d d1 hcs) (ih fuel d1 d' h)

/-- Every name of the Invokes list is registered after the loop ran. -/
theorem invokeAll_mem : ∀ (l : List String) (fuel : Nat) (d d' : DooState),
    invokeAll fuel l d = .ok d' → ∀ nm ∈ l, nm ∈ akeys d'.jobs := by
  intro l
  induction l with
  | nil =>
    intro fuel d d' h nm hnm
    cases hnm
  | cons nm0 rest ih =>
    intro fuel d d' h nm hnm
    rw [invokeAll] at h
    cases hcs : createStartJob fuel nm0 d with
    | error e =>
      rw [hcs] at h
      cases h
    | ok d1 =>
      rw [hcs] at h
      rcases List.mem_cons.mp hnm with hnm | hnm
      · subst hnm
        exact BuilderEff.keys_mono (invokeAll_eff rest fuel d1 d' h)
          (createStartJob_mem hcs)
      · exact ih fuel d1 d' h nm hnm

/-! ## C1: Invokes expansion on completion -/

/-- C1 counterexample: didComplete runs the Invokes expansion without
consulting job.err. The Start job of exInvoker completed with a non-nil
error, yet processing its completion enqueues a start job for the
invoked name b — contradicting the claim that a Start job completing
with an error enqueues no invokes. -/
theorem c1_counterexample :
    exFailedJob.err.isSome = true ∧
    exFailedJob.mode = TargetStart ∧
    alookup "b" exState1.jobs = none ∧
    didComplete 2 exFailedJob exState1 = .ok exState1' ∧
    (alookup "b" exState1'.jobs).isSome = true := by
  refine ⟨rfl, rfl, by decide, ?_, by decide⟩
  rw [didComplete]
  simp [exFailedJob, exState1, exState1', exInvoker, exTmux, decDependents,
    invokeAll, createStartJob, alookup, aset, TargetStart, Target.isExclusive]

/-- C1 (amended): on completion of a job with mode Start, the scheduler
enqueues a start job via createStartJob for every name in the target's
Invokes list unconditionally — whatever the value of job.err, including
a failed job. -/
theorem c1_invokes_expansion (fuel : Nat) (job : Job) (t : Target)
    (d d' : DooState) (htgt : job.target = some t)
    (hmode : job.mode = TargetStart)
    (h : didComplete fuel job d = .ok d') :
    ∀ nm ∈ t.invokes, nm ∈ akeys d'.jobs := by
  rw [didComplete, htgt] at h
  simp only [hmode, if_true] at h
  split at h
  · exact invokeAll_mem t.invokes fuel _ d' h
  · exact invokeAll_mem t.invokes fuel _ d' h

/-- Witness for c1_invokes_expansion on the concrete failed completion. -/
theorem c1_invokes_expansion_witness : "b" ∈ akeys exState1'.jobs := by
  have h : didComplete 2 exFailedJob exState1 = .ok exState1' := by
    rw [didComplete]
    simp [exFailedJob, exState1, exState1', exInvoker, exTmux, decDependents,
      invokeAll, createStartJob, alookup, aset, TargetStart, Target.isExclusive]
  exact c1_invokes_expansion 2 exFailedJob exInvoker exState1 exState1' rfl rfl h
    "b" (by decide)

/-! ## C8: deadlock detection -/

/-- C8: whenever the scheduler loop reaches a state with no admissible
job, no job in flight, not all jobs terminal and no error observed, the
loop returns at once with the state unchanged, and the tail of main
reports the deadlock line about a possible dependency cycle and exits
with the non-zero code 1. -/
theorem c8_deadlock_reported (d : DooState) (cfuel fuel : Nat)
    (events : List (String × Option String))
    (h1 : d.didError = false) (h2 : hasCompleted d = false)
    (h3 : nextJob d = none) (h4 : hasRunningJobs d = false) :
    runAllJobsStep cfuel events d = .done d ∧
    runAllJobs cfuel (fuel + 1) events d = some d ∧
    mainEpilogue d =
      ⟨some "doo is deadlocked. do you have a dependency cycle?", 1⟩ ∧
    ¬ (mainEpilogue d).exitCode = 0 := by
  have hstep : runAllJobsStep cfuel events d = .done d := by
    rw [runAllJobsStep.eq_def]
    simp [h1, h2, h3, h4]
  refine ⟨hstep, ?_, ?_, ?_⟩
  · rw [runAllJobs, hstep]
  · rw [mainEpilogue]
    simp [h1, h2]
  · rw [mainEpilogue]
    simp [h1, h2]

/-- Witness for c8_deadlock_reported on the two-target dependency cycle. -/
theorem c8_deadlock_reported_witness :
    runAllJobs 5 3 [] exDead = some exDead ∧
    mainEpilogue exDead =
      ⟨some "doo is deadlocked. do you have a dependency cycle?", 1⟩ := by
  have h := c8_deadlock_reported exDead 5 2 [] (by decide) (by decide)
    (by decide) (by decide)
  exact ⟨h.2.1, h.2.2.1⟩

/-! ## Validator characterization -/

theorem alookup_cfgOf (k : String) (m : List (String × Target)) :
    alookup k (cfgOf m) = (alookup k m).map (fun t => (t.configId, t.configPath)) := by
  induction m with
  | nil => rfl
  | cons p rest ih =>
    obtain ⟨k', t⟩ := p
    by_cases h : k' = k <;> simp [cfgOf, alookup, h] <;> simpa [cfgOf] using ih

theorem cfgOf_aset (k : String) (t : Target) (m : List (String × Target)) :
    cfgOf (aset k t m) = aset k (t.configId, t.configPath) (cfgOf m) := by
  induction m with
  | nil => rfl
  | cons p rest ih =>
    obtain ⟨k', w⟩ := p
    by_cases h : k' = k <;> simp [cfgOf, aset, h] <;> simpa [cfgOf] using ih

/-- The first validateTargets pass equals the name index plus the
spec-side error list. -/
theorem validatePass1_char :
    ∀ (ts : List Target) (tmap : List (String × Target)) (errs : List String),
      validatePass1 tmap errs ts = (storeMap tmap ts, errs ++ pass1Spec (cfgOf tmap) ts) := by
  intro ts
  induction ts with
  | nil => intro tmap errs; simp [validatePass1, storeMap, pass1Spec]
  | cons t rest ih =>
    intro tmap errs
    by_cases hname : t.name = ""
    · rw [validatePass1, storeMap, pass1Spec]
      simp only [hname, if_true]
      rw [ih, targetErrsSpec, cfgMapStep]
      simp [hname]
    · rw [validatePass1, storeMap, pass1Spec]
      simp only [hname, if_false]
      rw [ih, targetErrsSpec, cfgMapStep]
      simp only [hname, if_false]
      rw [cfgOf_aset, alookup_cfgOf]
      cases halo : alookup t.name tmap with
      | none => simp [halo]
      | some other => by_cases hid : other.configId = t.configId <;> simp [halo, hid]

theorem depErrsSpec_congr {m₁ m₂ : List (String × Target)}
    (h : ∀ k, (alookup k m₁).isSome = (alookup k m₂).isSome) (tname : String) :
    ∀ deps, depErrsSpec m₁ tname deps = depErrsSpec m₂ tname deps := by
  intro deps
  induction deps with
  | nil => rfl
  | cons dep rest ih => rw [depErrsSpec, depErrsSpec, h dep, ih]

theorem pass2SpecOn_congr {m₁ m₂ : List (String × Target)}
    (h : ∀ k, (alookup k m₁).isSome = (alookup k m₂).isSome) :
    ∀ ts, pass2SpecOn m₁ ts = pass2SpecOn m₂ ts := by
  intro ts
  induction ts with
  | nil => rfl
  | cons t rest ih =>
    rw [pass2SpecOn, pass2SpecOn, depErrsSpec_congr h, ih]

/-- The dependency loop of the second pass: it accumulates the spec-side
unknown-dependency errors and appends the spec-side dependants to each
referenced entry. -/
theorem validateDeps_char :
    ∀ (deps : List String) (tname : String) (tmap : List (String × Target))
      (errs : List String),
      (validateDeps tname tmap errs deps).2 = errs ++ depErrsSpec tmap tname deps ∧
      ∀ n, alookup n (validateDeps tname tmap errs deps).1 =
        (alookup n tmap).map
          (fun t => { t with dependants := t.dependants ++ dependantsOf n tname deps }) := by
  intro deps
  induction deps with
  | nil =>
    intro tname tmap errs
    constructor
    · simp [validateDeps, depErrsSpec]
    · intro n
      simp only [validateDeps, dependantsOf]
      cases alookup n tmap <;> simp
  | cons dep rest ih =>
    intro tname tmap errs
    cases halo : alookup dep tmap with
    | some t0 =>
      have hsome : ∀ k, (alookup k (amodify dep
          (fun o => { o with dependants := o.dependants ++ [tname] }) tmap)).isSome =
          (alookup k tmap).isSome := by
        intro k
        rw [alookup_amodify]
        by_cases h : dep = k
        · subst h
          cases alookup dep tmap <;> simp
        · simp [h]
      constructor
      · rw [validateDeps]
        simp only [halo]
        rw [(ih tname _ errs).1, depErrsSpec]
        rw [depErrsSpec_congr hsome]
        simp [halo]
      · intro n
        rw [validateDeps]
        simp only [halo]
        rw [(ih tname _ errs).2 n, alookup_amodify]
        by_cases h : dep = n
        · subst h
          rw [if_pos rfl]
          cases alookup dep tmap <;> simp [dependantsOf]
        · simp [h, dependantsOf]
    | none =>
      constructor
      · rw [validateDeps]
        simp only [halo]
        rw [(ih tname tmap _).1, depErrsSpec]
        simp [halo]
      · intro n
        rw [validateDeps]
        simp only [halo]
        rw [(ih tname tmap _).2 n]
        by_cases h : dep = n
        · subst h
          simp [halo]
        · simp [dependantsOf, h]

/-- The second validateTargets pass equals the spec-side error list and
the spec-side dependants on every entry. -/
theorem validatePass2_char :
    ∀ (ts : List Target) (tmap : List (String × Target)) (errs : List String),
      (validatePass2 tmap errs ts).2 = errs ++ pass2SpecOn tmap ts ∧
      ∀ n, alookup n (validatePass2 tmap errs ts).1 =
        (alookup n tmap).map
          (fun t => { t with dependants := t.dependants ++ dependantsSpec ts n }) := by
  intro ts
  induction ts with
  | nil =>
    intro tmap errs
    constructor
    · simp [validatePass2, pass2SpecOn]
    · intro n
      simp only [validatePass2, dependantsSpec]
      cases alookup n tmap <;> simp
  | cons t rest ih =>
    intro tmap errs
    have hdep := validateDeps_char t.dependencies t.name tmap errs
    have hsome : ∀ k,
        (alookup k (validateDeps t.name tmap errs t.dependencies).1).isSome =
          (alookup k tmap).isSome := by
      intro k
      rw [hdep.2 k]
      cases alookup k tmap <;> simp
    constructor
    · rw [validatePass2]
      rw [(ih _ _).1, hdep.1, pass2SpecOn]
      rw [pass2SpecOn_congr hsome]
      simp
    · intro n
      rw [validatePass2]
      rw [(ih _ _).2 n, hdep.2 n, dependantsSpec]
      cases alookup n tmap <;> simp

/-- Full characterization of validateTargets (doo.go): the error list is
the concatenation, in input order, of each target's first-pass errors —
the missing name error for a nameless target; for a named target a
duplicate error (with the same-config message exactly when the earlier
definition shares the config value), then the invalid runner error for
an unrecognized runner or, for a valid non-shell runner with an empty
command, the missing command error — followed by one unknown-dependency
error per dependency that resolves to no entry of the final name index;
and each entry of the produced index carries exactly the dependants
accumulated from resolved dependency occurrences. The validator thus
accumulates every error and never stops at the first. -/
theorem validateTargets_char (ts : List Target) :
    (validateTargets ts).errors =
      pass1Spec [] ts ++ pass2SpecOn (storeMap [] ts) ts ∧
    ∀ n, alookup n (validateTargets ts).targetMap =
      (alookup n (storeMap [] ts)).map
        (fun t => { t with dependants := t.dependants ++ dependantsSpec ts n }) := by
  have h1 := validatePass1_char ts [] []
  have h2 := validatePass2_char ts (storeMap [] ts) (pass1Spec [] ts)
  constructor
  · show (validatePass2 (validatePass1 [] [] ts).1 (validatePass1 [] [] ts).2 ts).2 = _
    rw [h1]
    simpa [cfgOf] using h2.1
  · intro n
    show alookup n (validatePass2 (validatePass1 [] [] ts).1 (validatePass1 [] [] ts).2 ts).1 = _
    rw [h1]
    simpa [cfgOf] using h2.2 n

/-! ## C7: validator error accumulation -/

/-- C7 counterexample: exBogus is a non-shell target (runner bogus) with
an empty command, so the claim demands a missing-command error for it;
the validator emits only the invalid-runner error, because the command
check sits behind the runner-validity check. -/
theorem c7_counterexample :
    ¬ exBogus.runner = "shell" ∧
    exBogus.command = "" ∧
    (validateTargets [exBogus]).errors =
      ["Target a in p.toml has invalid runner: bogus"] ∧
    ¬ "Target a in p.toml is missing command" ∈ (validateTargets [exBogus]).errors := by
  refine ⟨by decide, by decide, by decide, by decide⟩

/-- C7 (amended): for every input target list the validator accumulates
all errors before returning, never stopping at the first: its error
list is the concatenation in input order of, per target, the missing
name error for a nameless target, or else the duplicate error (whose
message differs between a colliding definition from the same config
source and one from a different source) and then either the invalid
runner error or — only when the runner is valid, non-shell and the
command empty — the missing command error; followed by one error per
dependency of each target that resolves to no entry of the final name
index; and dependants edges are populated exactly for the successfully
resolved dependency occurrences. -/
theorem c7_validator_accumulation (ts : List Target) :
    (validateTargets ts).errors =
      pass1Spec [] ts ++ pass2SpecOn (storeMap [] ts) ts ∧
    ∀ n, alookup n (validateTargets ts).targetMap =
      (alookup n (storeMap [] ts)).map
        (fun t => { t with dependants := t.dependants ++ dependantsSpec ts n }) :=
  validateTargets_char ts

/-- Witness for c7_validator_accumulation on the one-target catalog. -/
theorem c7_validator_accumulation_witness :
    (validateTargets [exBogus]).errors =
      pass1Spec [] [exBogus] ++ pass2SpecOn (storeMap [] [exBogus]) [exBogus] :=
  (c7_validator_accumulation [exBogus]).1

/-! ## C9: Invokes entries are not validated and unknown names panic -/

theorem targetErrsSpec_clear (m : List (String × Nat × String)) (t : Target) :
    targetErrsSpec m (clearInvokes t) = targetErrsSpec m t := rfl

theorem cfgMapStep_clear (m : List (String × Nat × String)) (t : Target) :
    cfgMapStep m (clearInvokes t) = cfgMapStep m t := rfl

theorem pass1Spec_clear : ∀ (ts : List Target) (m : List (String × Nat × String)),
    pass1Spec m (ts.map clearInvokes) = pass1Spec m ts := by
  intro ts
  induction ts with
  | nil => intro m; rfl
  | cons t rest ih =>
    intro m
    rw [List.map_cons, pass1Spec, pass1Spec, targetErrsSpec_clear, cfgMapStep_clear,
      ih]

theorem storeMap_clear_isSome :
    ∀ (ts : List Target) (m₁ m₂ : List (String × Target)),
      (∀ k, (alookup k m₁).isSome = (alookup k m₂).isSome) →
      ∀ k, (alookup k (storeMap m₁ (ts.map clearInvokes))).isSome =
        (alookup k (storeMap m₂ ts)).isSome := by
  intro ts
  induction ts with
  | nil => intro m₁ m₂ h k; exact h k
  | cons t rest ih =>
    intro m₁ m₂ h k
    rw [List.map_cons, storeMap, storeMap]
    have hname : (clearInvokes t).name = t.name := rfl
    rw [hname]
    by_cases hn : t.name = ""
    · simp only [hn, if_true]
      exact ih m₁ m₂ h k
    · simp only [hn, if_false]
      refine ih _ _ ?_ k
      intro k'
      by_cases hk : t.name = k'
      · subst hk
        rw [alookup_aset_self, alookup_aset_self]
        rfl
      · rw [alookup_aset_ne hk, alookup_aset_ne hk]
        exact h k'

theorem pass2SpecOn_clear :
    ∀ (ts : List Target) (m₁ m₂ : List (String × Target)),
      (∀ k, (alookup k m₁).isSome = (alookup k m₂).isSome) →
      pass2SpecOn m₁ (ts.map clearInvokes) = pass2SpecOn m₂ ts := by
  intro ts
  induction ts with
  | nil => intro m₁ m₂ h; rfl
  | cons t rest ih =>
    intro m₁ m₂ h
    rw [List.map_cons, pass2SpecOn, pass2SpecOn]
    have hname : (clearInvokes t).name = t.name := rfl
    have hdeps : (clearInvokes t).dependencies = t.dependencies := rfl
    rw [hname, hdeps, depErrsSpec_congr h, ih _ _ h]

theorem depErrsSpec_mem {dep : String} {tmap : List (String × Target)}
    (tname : String) (h2 : alookup dep tmap = none) :
    ∀ {deps : List String}, dep ∈ deps →
      (tname ++ " depends on unknown target " ++ dep) ∈ depErrsSpec tmap tname deps := by
  intro deps
  induction deps with
  | nil => intro h; cases h
  | cons d0 rest ih =>
    intro h
    rw [depErrsSpec]
    rcases List.mem_cons.mp h with h | h
    · subst h
      rw [h2]
      simp
    · exact List.mem_append.mpr (Or.inr (ih h))

theorem pass2SpecOn_mem {t : Target} {dep : String} {tmap : List (String × Target)}
    (h1 : dep ∈ t.dependencies) (h2 : alookup dep tmap = none) :
    ∀ {ts : List Target}, t ∈ ts →
      (t.name ++ " depends on unknown target " ++ dep) ∈ pass2SpecOn tmap ts := by
  intro ts
  induction ts with
  | nil => intro h; cases h
  | cons t0 rest ih =>
    intro h
    rw [pass2SpecOn]
    rcases List.mem_cons.mp h with h | h
    · subst h
      exact List.mem_append.mpr (Or.inl (depErrsSpec_mem t.name h2 h1))
    · exact List.mem_append.mpr (Or.inr (ih h))

/-- An Invokes expansion whose single name is registered nowhere makes
createStartJob dereference a nil target. -/
theorem invokeAll_singleton_panic (fuel : Nat) (nm : String) (d : DooState)
    (h1 : alookup nm d.jobs = none) (h2 : alookup nm d.targetMap = none) :
    invokeAll (fuel + 1) [nm] d = .error .panicked := by
  rw [invokeAll, createStartJob]
  simp [h1, h2]

/-- C9: the validator never reads the invokes lists (erasing them leaves
the error list unchanged), while a dependency on an unknown name is
reported; yet createStartJob called with a name that is neither a job
nor a target panics on the nil target dereference, and so didComplete
panics when a completed Start job's target invokes an unknown name — so
every argument of createStartJob must be a key of targetMap, a
precondition the validator enforces for dependencies but not for
invokes. -/
theorem c9_invokes_not_validated :
    (∀ ts : List Target,
        (validateTargets (ts.map clearInvokes)).errors = (validateTargets ts).errors) ∧
    (∀ (ts : List Target) (t : Target) (dep : String),
        t ∈ ts → dep ∈ t.dependencies → alookup dep (storeMap [] ts) = none →
        (t.name ++ " depends on unknown target " ++ dep) ∈ (validateTargets ts).errors) ∧
    (∀ (fuel : Nat) (name : String) (d : DooState),
        alookup name d.jobs = none → alookup name d.targetMap = none →
        createStartJob (fuel + 1) name d = .error .panicked) ∧
    (∀ (fuel : Nat) (job : Job) (t : Target) (nm : String) (d : DooState),
        job.target = some t → job.mode = TargetStart → t.invokes = [nm] →
        alookup nm d.jobs = none → alookup nm d.targetMap = none →
        didComplete (fuel + 1) job d = .error .panicked) := by
  refine ⟨fun ts => ?_, fun ts t dep hmem hdep hnone => ?_,
    fun fuel name d h1 h2 => ?_, fun fuel job t nm d htgt hmode hinv h1 h2 => ?_⟩
  · rw [(validateTargets_char (ts.map clearInvokes)).1, (validateTargets_char ts).1]
    rw [pass1Spec_clear,
      pass2SpecOn_clear ts _ _ (storeMap_clear_isSome ts [] [] (fun _ => rfl))]
  · rw [(validateTargets_char ts).1]
    exact List.mem_append.mpr (Or.inr (pass2SpecOn_mem hdep hnone hmem))
  · rw [createStartJob]
    simp [h1, h2]
  · have hjobs : alookup nm (decDependents job.dependentJobs d.jobs) = none := by
      rw [alookup_none_iff, akeys_decDependents]
      exact (alookup_none_iff nm d.jobs).mp h1
    rw [didComplete, htgt]
    simp only [hmode, hinv, if_true]
    split
    · exact invokeAll_singleton_panic fuel nm _ hjobs h2
    · exact invokeAll_singleton_panic fuel nm _ hjobs h2

/-- Witness for c9_invokes_not_validated at concrete inputs. -/
theorem c9_invokes_not_validated_witness :
    (validateTargets ([exInvoker].map clearInvokes)).errors =
      (validateTargets [exInvoker]).errors ∧
    ("ca" ++ " depends on unknown target " ++ "cb") ∈
      (validateTargets [exCycA]).errors ∧
    createStartJob 3 "ghost" exState1 = .error .panicked ∧
    didComplete 3 exFailedJob
      ⟨[("a", exInvoker)], [("a", exFailedJob)], 1, 0, false, false, false⟩ =
      .error .panicked := by
  refine ⟨c9_invokes_not_validated.1 [exInvoker], ?_, ?_, ?_⟩
  · exact c9_invokes_not_validated.2.1 [exCycA] exCycA "cb" (by decide) (by decide)
      (by decide)
  · exact c9_invokes_not_validated.2.2.1 2 "ghost" exState1 (by decide) (by decide)
  · exact c9_invokes_not_validated.2.2.2 2 exFailedJob exInvoker "b" _ rfl rfl rfl
      (by decide) (by decide)

/-! ## C3: exclusivity invariant of the scheduler -/

theorem viewInFlight_jobView (p : String × Job) :
    viewInFlight (jobView p) = inFlight p.2 := rfl

theorem viewExcl_jobView (p : String × Job) :
    viewExcl (jobView p) = jobExclusive p.2 := by
  rw [jobView, viewExcl, jobExclusive]

theorem countIF_split (l₁ l₂ : List (String × Job)) (p : String × Job) :
    countIF (l₁ ++ p :: l₂) =
      countIF l₁ + (if inFlight p.2 = true then 1 else 0) + countIF l₂ := by
  rw [countIF, countIF, countIF, viewsOf_append, viewsOf_cons,
    List.filter_append, List.filter_cons, viewInFlight_jobView]
  by_cases h : inFlight p.2 = true <;> simp [h] <;> omega

theorem countIF_of_views_append {l l' : List (String × Job)}
    {ext : List (String × Bool × Bool × Option Target)}
    (hv : viewsOf l' = viewsOf l ++ ext)
    (he : ∀ q ∈ ext, q.2.1 = false ∧ q.2.2.1 = false) :
    countIF l' = countIF l := by
  rw [countIF, countIF, hv, List.filter_append]
  have hnil : ext.filter viewInFlight = [] := by
    rw [List.filter_eq_nil_iff]
    intro v hv2
    rw [viewInFlight, (he v hv2).1]
    simp
  rw [hnil, List.append_nil]

theorem exclInFlight_of_views_append {l l' : List (String × Job)}
    {ext : List (String × Bool × Bool × Option Target)}
    (hv : viewsOf l' = viewsOf l ++ ext)
    (he : ∀ q ∈ ext, q.2.1 = false ∧ q.2.2.1 = false) :
    ExclInFlight l' ↔ ExclInFlight l := by
  rw [ExclInFlight, ExclInFlight, hv]
  constructor
  · rintro ⟨v, hmem, hif, hex⟩
    rcases List.mem_append.mp hmem with hmem | hmem
    · exact ⟨v, hmem, hif, hex⟩
    · rw [viewInFlight, (he v hmem).1] at hif
      simp at hif
  · rintro ⟨v, hmem, hif, hex⟩
    exact ⟨v, List.mem_append.mpr (Or.inl hmem), hif, hex⟩

theorem exclInFlight_pos {l : List (String × Job)} (h : ExclInFlight l) :
    1 ≤ countIF l := by
  obtain ⟨v, hv, hif, _⟩ := h
  exact List.length_pos_of_mem (List.mem_filter.mpr ⟨hv, hif⟩)

theorem two_le_length_of_two_mem {α : Type} {l : List α} {a b : α}
    (ha : a ∈ l) (hb : b ∈ l) (hne : ¬ a = b) : 2 ≤ l.length := by
  match l with
  | [] => cases ha
  | [x] =>
    simp only [List.mem_singleton] at ha hb
    subst ha
    subst hb
    exact absurd rfl hne
  | x :: y :: rest => simp [List.length_cons]

/-- Effect of didComplete on the scheduler-visible state: the views of
existing jobs survive (possibly followed by unstarted jobs appended by
the Invokes expansion), the dispatch counter is untouched, the
completion counter grows by one, the exclusivity flag is cleared
exactly for an exclusive target, and key uniqueness is preserved. -/
theorem didComplete_eff {fuel : Nat} {job : Job} {t : Target} {d0 d' : DooState}
    (htgt : job.target = some t) (h : didComplete fuel job d0 = .ok d') :
    (∃ ext, viewsOf d'.jobs = viewsOf d0.jobs ++ ext ∧
        ∀ q ∈ ext, q.2.1 = false ∧ q.2.2.1 = false) ∧
    d'.startedJobs = d0.startedJobs ∧
    d'.completedJobs = d0.completedJobs + 1 ∧
    d'.isExclusiveRunning =
      (if t.isExclusive = true then false else d0.isExclusiveRunning) ∧
    (KeysNodup d0.jobs → KeysNodup d'.jobs) := by
  rw [didComplete, htgt] at h
  have hfin : ∀ dmid : DooState,
      dmid.jobs = decDependents job.dependentJobs d0.jobs →
      dmid.startedJobs = d0.startedJobs →
      dmid.completedJobs = d0.completedJobs + 1 →
      dmid.isExclusiveRunning =
        (if t.isExclusive = true then false else d0.isExclusiveRunning) →
      BuilderEff dmid d' →
      (∃ ext, viewsOf d'.jobs = viewsOf d0.jobs ++ ext ∧
          ∀ q ∈ ext, q.2.1 = false ∧ q.2.2.1 = false) ∧
      d'.startedJobs = d0.startedJobs ∧
      d'.completedJobs = d0.completedJobs + 1 ∧
      d'.isExclusiveRunning =
        (if t.isExclusive = true then false else d0.isExclusiveRunning) ∧
      (KeysNodup d0.jobs → KeysNodup d'.jobs) := by
    intro dmid hjobs hst hco hex heff
    obtain ⟨⟨ext, hv, he⟩, _, hs2, hc2, _, hx2, _, hn2⟩ := heff
    refine ⟨⟨ext, ?_, he⟩, hs2.trans hst, hc2.trans hco, hx2.trans hex, ?_⟩
    · rw [hv, hjobs, viewsOf_decDependents]
    · intro hn
      apply hn2
      rw [KeysNodup, hjobs, akeys_decDependents]
      exact hn
  split at h
  next x heq => cases heq
  next x t2 heq =>
    injection heq with he
    subst he
    simp only [] at h
    split at h
    · split at h
      · exact hfin { d0 with jobs := decDependents job.dependentJobs d0.jobs, completedJobs := d0.completedJobs + 1, didError := true, isExclusiveRunning := if t.isExclusive = true then false else d0.isExclusiveRunning } rfl rfl rfl rfl (invokeAll_eff t.invokes fuel _ d' h)
      · exact hfin { d0 with jobs := decDependents job.dependentJobs d0.jobs, completedJobs := d0.completedJobs + 1, isExclusiveRunning := if t.isExclusive = true then false else d0.isExclusiveRunning } rfl rfl rfl rfl (invokeAll_eff t.invokes fuel _ d' h)
    · split at h
      · injection h with h2
        subst h2
        exact hfin { d0 with jobs := decDependents job.dependentJobs d0.jobs, completedJobs := d0.completedJobs + 1, didError := true, isExclusiveRunning := if t.isExclusive = true then false else d0.isExclusiveRunning } rfl rfl rfl rfl (builderEff_refl _)
      · injection h with h2
        subst h2
        exact hfin { d0 with jobs := decDependents job.dependentJobs d0.jobs, completedJobs := d0.completedJobs + 1, isExclusiveRunning := if t.isExclusive = true then false else d0.isExclusiveRunning } rfl rfl rfl rfl (builderEff_refl _)

theorem jobExclusive_of_target {j : Job} {t : Target} (h : j.target = some t) :
    jobExclusive j = t.isExclusive := by
  rw [jobExclusive, h]

/-- An initial scheduler state satisfies the invariant. -/
theorem schedInv_init {d : DooState} (h : InitState d) : SchedInv d := by
  obtain ⟨hs, hc, hx, hn, hp⟩ := h
  have hIF : countIF d.jobs = 0 := by
    rw [countIF, List.length_eq_zero, List.filter_eq_nil_iff]
    intro v hv
    obtain ⟨p, hp2, hpv⟩ := List.mem_map.mp hv
    subst hpv
    rw [viewInFlight_jobView, inFlight, (hp p hp2).1]
    simp
  have hnex : ¬ ExclInFlight d.jobs := by
    intro hexc
    have := exclInFlight_pos hexc
    omega
  refine ⟨hn, by rw [hs, hc, hIF], ?_, fun hexc => absurd hexc hnex, ?_⟩
  · rw [hx]
    exact iff_of_false (by simp) hnex
  · intro v hv hcompl
    obtain ⟨p, hp2, hpv⟩ := List.mem_map.mp hv
    subst hpv
    have := (hp p hp2).2
    rw [jobView] at hcompl
    simp only [] at hcompl
    rw [this] at hcompl
    cases hcompl

/-- Every scheduler transition preserves the invariant. -/
theorem schedInv_step {d d' : DooState} (hstep : SchedStep d d')
    (hinv : SchedInv d) : SchedInv d' := by
  obtain ⟨hn, hcount, hiff, huniq, hcs⟩ := hinv
  cases hstep with
  | dispatch name j dd halo hflag hstart hdep hexcl =>
    obtain ⟨l₁, l₂, hsplit, hnotin⟩ := alookup_split halo
    have hmemkeys : name ∈ akeys d.jobs := (alookup_isSome_iff name d.jobs).mp
      (by rw [halo]; rfl)
    have hjobs' : (startJob name j d).jobs =
        l₁ ++ (name, { j with started := true }) :: l₂ := by
      show aset name { j with started := true } d.jobs = _
      rw [hsplit]
      exact aset_split hnotin _ _ _
    have hmemj : (name, j) ∈ d.jobs := by
      rw [hsplit]
      exact List.mem_append.mpr (Or.inr (List.mem_cons_self _ _))
    have hcompl : j.completed = false := by
      cases hco : j.completed with
      | false => rfl
      | true =>
        have := hcs (jobView (name, j)) (List.mem_map.mpr ⟨(name, j), hmemj, rfl⟩)
          (by rw [jobView]; simp only []; exact hco)
        rw [jobView] at this
        simp only [] at this
        rw [hstart] at this
        cases this
    have hifj : inFlight j = false := by
      rw [inFlight, hstart]
      simp
    have hifj' : inFlight { j with started := true } = true := by
      rw [inFlight]
      simp only []
      rw [hcompl]
      simp
    have hcd : countIF d.jobs = countIF l₁ + countIF l₂ := by
      rw [hsplit, countIF_split, hifj]
      simp
    have hcd' : countIF (startJob name j d).jobs = countIF l₁ + 1 + countIF l₂ := by
      rw [hjobs', countIF_split, hifj']
      simp
    have hnd' : KeysNodup (startJob name j d).jobs := by
      show KeysNodup (aset name { j with started := true } d.jobs)
      rw [KeysNodup, akeys_aset _ hmemkeys]
      exact hn
    have hstarted' : (startJob name j d).startedJobs = d.startedJobs + 1 := rfl
    have hcompleted' : (startJob name j d).completedJobs = d.completedJobs := rfl
    have hflag' : (startJob name j d).isExclusiveRunning =
        (if jobExclusive j then true else d.isExclusiveRunning) := rfl
    have hexj' : jobExclusive { j with started := true } = jobExclusive j := by
      rw [jobExclusive, jobExclusive]
    have hcs' : ∀ v ∈ viewsOf (startJob name j d).jobs, v.2.2.1 = true → v.2.1 = true := by
      intro v hv hvc
      rw [hjobs', viewsOf_append, viewsOf_cons] at hv
      rcases List.mem_append.mp hv with hv | hv
      · exact hcs v (by rw [hsplit, viewsOf_append, viewsOf_cons]; exact List.mem_append.mpr (Or.inl hv)) hvc
      · rcases List.mem_cons.mp hv with hv | hv
        · subst hv
          rfl
        · exact hcs v (by rw [hsplit, viewsOf_append, viewsOf_cons]; exact List.mem_append.mpr (Or.inr (List.mem_cons.mpr (Or.inr hv)))) hvc
    cases hjex : jobExclusive j with
    | true =>
      have hrun : hasRunningJobs d = false := hexcl hjex
      have hle : d.startedJobs ≤ d.completedJobs := by
        rw [hasRunningJobs] at hrun
        simp at hrun
        omega
      have hzero : countIF l₁ = 0 ∧ countIF l₂ = 0 := by
        constructor <;> omega
      have hnew : ExclInFlight (startJob name j d).jobs := by
        refine ⟨jobView (name, { j with started := true }), ?_, ?_, ?_⟩
        · rw [hjobs', viewsOf_append, viewsOf_cons]
          exact List.mem_append.mpr (Or.inr (List.mem_cons_self _ _))
        · rw [viewInFlight_jobView, hifj']
        · rw [viewExcl_jobView, hexj', hjex]
      refine ⟨hnd', ?_, ?_, ?_, hcs'⟩
      · rw [hstarted', hcompleted', hcd']
        omega
      · rw [hflag', hjex]
        exact iff_of_true (by simp) hnew
      · intro _
        rw [hcd']
        omega
    | false =>
      have hnoex : ¬ ExclInFlight (startJob name j d).jobs := by
        rintro ⟨v, hv, hvif, hvex⟩
        rw [hjobs', viewsOf_append, viewsOf_cons] at hv
        have hvd : v ∈ viewsOf d.jobs ∨ v = jobView (name, { j with started := true }) := by
          rcases List.mem_append.mp hv with hv | hv
          · exact Or.inl (by rw [hsplit, viewsOf_append, viewsOf_cons]; exact List.mem_append.mpr (Or.inl hv))
          · rcases List.mem_cons.mp hv with hv | hv
            · exact Or.inr hv
            · exact Or.inl (by rw [hsplit, viewsOf_append, viewsOf_cons]; exact List.mem_append.mpr (Or.inr (List.mem_cons.mpr (Or.inr hv))))
        rcases hvd with hvd | hvd
        · have : ExclInFlight d.jobs := ⟨v, hvd, hvif, hvex⟩
          rw [← hiff] at this
          rw [hflag] at this
          cases this
        · subst hvd
          rw [viewExcl_jobView, hexj', hjex] at hvex
          cases hvex
      refine ⟨hnd', ?_, ?_, fun hexc => absurd hexc hnoex, hcs'⟩
      · rw [hstarted', hcompleted', hcd']
        omega
      · rw [hflag', hjex, hflag]
        exact iff_of_false (by simp) hnoex
  | complete name j e fuel dd dd' halo hstart hcomp hdc =>
    obtain ⟨l₁, l₂, hsplit, hnotin⟩ := alookup_split halo
    have hmemkeys : name ∈ akeys d.jobs := (alookup_isSome_iff name d.jobs).mp
      (by rw [halo]; rfl)
    cases hjt : j.target with
    | none =>
      have htgt2 : (jobDone e j).target = none := hjt
      rw [didComplete, htgt2] at hdc
      cases hdc
    | some t =>
      have htgt2 : (jobDone e j).target = some t := hjt
      obtain ⟨⟨ext, hv, he⟩, hst', hco', hfl', hnd2⟩ := didComplete_eff htgt2 hdc
      have hjobsmid : ({ d with jobs := aset name (jobDone e j) d.jobs }).jobs =
          l₁ ++ (name, jobDone e j) :: l₂ := by
        show aset name (jobDone e j) d.jobs = _
        rw [hsplit]
        exact aset_split hnotin _ _ _
      have hifj : inFlight j = true := by
        rw [inFlight, hstart, hcomp]
        rfl
      have hifdone : inFlight (jobDone e j) = false := by
        rw [inFlight, jobDone]
        simp
      have hcd : countIF d.jobs = countIF l₁ + 1 + countIF l₂ := by
        rw [hsplit, countIF_split, hifj]
        simp
      have hcmid : countIF ({ d with jobs := aset name (jobDone e j) d.jobs }).jobs =
          countIF l₁ + countIF l₂ := by
        rw [hjobsmid, countIF_split, hifdone]
        simp
      have hcd' : countIF d'.jobs = countIF l₁ + countIF l₂ := by
        rw [countIF_of_views_append hv he]
        exact hcmid
      have hsideexcl : ¬ ExclInFlight d.jobs ∨ countIF l₁ + countIF l₂ = 0 := by
        by_cases hexc : ExclInFlight d.jobs
        · right
          have := huniq hexc
          omega
        · left
          exact hexc
      have hnoex' : ¬ ExclInFlight d'.jobs := by
        rw [exclInFlight_of_views_append hv he]
        rintro ⟨v, hvm, hvif, hvex⟩
        rw [hjobsmid, viewsOf_append, viewsOf_cons] at hvm
        have hvside : v ∈ viewsOf l₁ ∨ v ∈ viewsOf l₂ := by
          rcases List.mem_append.mp hvm with hvm | hvm
          · exact Or.inl hvm
          · rcases List.mem_cons.mp hvm with hvm | hvm
            · subst hvm
              rw [viewInFlight_jobView, hifdone] at hvif
              cases hvif
            · exact Or.inr hvm
        have hvd : v ∈ viewsOf d.jobs := by
          rw [hsplit, viewsOf_append, viewsOf_cons]
          rcases hvside with hvs | hvs
          · exact List.mem_append.mpr (Or.inl hvs)
          · exact List.mem_append.mpr (Or.inr (List.mem_cons.mpr (Or.inr hvs)))
        have hexc : ExclInFlight d.jobs := ⟨v, hvd, hvif, hvex⟩
        have h1 := huniq hexc
        have hside1 : 1 ≤ countIF l₁ + countIF l₂ := by
          rcases hvside with hvs | hvs
          · have : 1 ≤ countIF l₁ :=
              List.length_pos_of_mem (List.mem_filter.mpr ⟨hvs, hvif⟩)
            omega
          · have : 1 ≤ countIF l₂ :=
              List.length_pos_of_mem (List.mem_filter.mpr ⟨hvs, hvif⟩)
            omega
        omega
      have hfl'' : d'.isExclusiveRunning = false := by
        rw [hfl']
        cases het : t.isExclusive with
        | true => simp
        | false =>
          simp only [Bool.false_eq_true, if_false]
          cases hflagval : d.isExclusiveRunning with
          | false => rfl
          | true =>
            exfalso
            have hexc : ExclInFlight d.jobs := hiff.mp hflagval
            have h1 := huniq hexc
            obtain ⟨v, hvd, hvif, hvex⟩ := hexc
            rw [hsplit, viewsOf_append, viewsOf_cons] at hvd
            rcases List.mem_append.mp hvd with hvs | hvs
            · have : 1 ≤ countIF l₁ :=
                List.length_pos_of_mem (List.mem_filter.mpr ⟨hvs, hvif⟩)
              omega
            · rcases List.mem_cons.mp hvs with hvs | hvs
              · subst hvs
                rw [viewExcl_jobView, jobExclusive_of_target hjt, het] at hvex
                cases hvex
              · have : 1 ≤ countIF l₂ :=
                  List.length_pos_of_mem (List.mem_filter.mpr ⟨hvs, hvif⟩)
                omega
      have hnd' : KeysNodup d'.jobs := by
        apply hnd2
        show KeysNodup (aset name (jobDone e j) d.jobs)
        rw [KeysNodup, akeys_aset _ hmemkeys]
        exact hn
      refine ⟨hnd', ?_, ?_, fun hexc => absurd hexc hnoex', ?_⟩
      · rw [hst', hco', hcd']
        show d.startedJobs = d.completedJobs + 1 + (countIF l₁ + countIF l₂)
        omega
      · rw [hfl'']
        exact iff_of_false (by simp) hnoex'
      · intro v hvm hvc
        rw [hv] at hvm
        rcases List.mem_append.mp hvm with hvm | hvm
        · rw [hjobsmid, viewsOf_append, viewsOf_cons] at hvm
          rcases List.mem_append.mp hvm with hvm | hvm
          · exact hcs v (by rw [hsplit, viewsOf_append, viewsOf_cons]; exact List.mem_append.mpr (Or.inl hvm)) hvc
          · rcases List.mem_cons.mp hvm with hvm | hvm
            · subst hvm
              rw [jobView, jobDone]
              simp only []
              exact hstart
            · exact hcs v (by rw [hsplit, viewsOf_append, viewsOf_cons]; exact List.mem_append.mpr (Or.inr (List.mem_cons.mpr (Or.inr hvm)))) hvc
        · rw [(he v hvm).2] at hvc
          cases hvc

/-- The nextJob scan never returns an exclusive job while the counters
show a running job. -/
theorem nextJobScan_excl (d : DooState) :
    ∀ (l : List (String × Job)) (nj : String × Job), nextJobScan d l = some nj →
      jobExclusive nj.2 = true → hasRunningJobs d = false := by
  intro l
  induction l with
  | nil => intro nj h; cases h
  | cons p rest ih =>
    obtain ⟨n, j⟩ := p
    intro nj h hex
    rw [nextJobScan] at h
    split at h
    · exact ih nj h hex
    · split at h
      · exact ih nj h hex
      · split at h
        · exact ih nj h hex
        · injection h with h2
          subst h2
          next hguard =>
            cases hrun : hasRunningJobs d with
            | false => rfl
            | true =>
              exfalso
              apply hguard
              rw [hex, hrun]
              rfl

/-- C3: in every scheduler state reachable from an initial state, an
exclusive job that has been dispatched and not yet completed is the only
job in flight; moreover the admission gate returns no job at all while
isExclusiveRunning is set, and never returns an exclusive job while any
job is running. -/
theorem c3_exclusive_isolation (d0 d : DooState) (h0 : InitState d0)
    (hr : Reach d0 d) :
    (∀ p ∈ d.jobs, inFlight p.2 = true → jobExclusive p.2 = true →
        ∀ q ∈ d.jobs, ¬ q.1 = p.1 → inFlight q.2 = false) ∧
    (d.isExclusiveRunning = true → nextJob d = none) ∧
    (∀ nj : String × Job, nextJob d = some nj → jobExclusive nj.2 = true →
        hasRunningJobs d = false) := by
  have hinv : SchedInv d := by
    induction hr with
    | refl => exact schedInv_init h0
    | tail hsteps hstep ih => exact schedInv_step hstep ih
  obtain ⟨hn, hcount, hiff, huniq, hcs⟩ := hinv
  refine ⟨?_, ?_, ?_⟩
  · intro p hp hpif hpex q hq hqname
    cases hqif : inFlight q.2 with
    | false => rfl
    | true =>
      exfalso
      have hexc : ExclInFlight d.jobs :=
        ⟨jobView p, List.mem_map.mpr ⟨p, hp, rfl⟩,
          by rw [viewInFlight_jobView, hpif],
          by rw [viewExcl_jobView, hpex]⟩
      have h1 := huniq hexc
      have hpv : jobView p ∈ (viewsOf d.jobs).filter viewInFlight :=
        List.mem_filter.mpr ⟨List.mem_map.mpr ⟨p, hp, rfl⟩,
          by rw [viewInFlight_jobView, hpif]⟩
      have hqv : jobView q ∈ (viewsOf d.jobs).filter viewInFlight :=
        List.mem_filter.mpr ⟨List.mem_map.mpr ⟨q, hq, rfl⟩,
          by rw [viewInFlight_jobView, hqif]⟩
      have hne : ¬ jobView q = jobView p := by
        intro heq
        apply hqname
        have : (jobView q).1 = (jobView p).1 := by rw [heq]
        exact this
      have := two_le_length_of_two_mem hqv hpv hne
      rw [countIF] at h1
      omega
  · intro hflag
    rw [nextJob, if_pos hflag]
  · intro nj h hex
    rw [nextJob] at h
    split at h
    · cases h
    · exact nextJobScan_excl d d.jobs nj h hex

/-- Witness for c3_exclusive_isolation at the initial one-job state. -/
theorem c3_exclusive_isolation_witness :
    (∀ p ∈ exInit.jobs, inFlight p.2 = true → jobExclusive p.2 = true →
        ∀ q ∈ exInit.jobs, ¬ q.1 = p.1 → inFlight q.2 = false) ∧
    (exInit.isExclusiveRunning = true → nextJob exInit = none) := by
  have h0 : InitState exInit := ⟨rfl, rfl, rfl, by decide, by decide⟩
  have h := c3_exclusive_isolation exInit exInit h0 Relation.ReflTransGen.refl
  exact ⟨h.1, h.2.1⟩

end Doo
